import Mathlib

/-!
# Verification of the Postly job-scraper core

Shallow embedding, in Lean 4, of the parts of `apps/scraper/src` that the
specification's testable properties talk about: fingerprint normalization and
hashing (`middlewares/deduplication.py`, `models.py`), the deduplication
middleware and processing pipeline (`pipeline.py`), the database upsert paths
(`database.py`), weighted embedding-text composition and sub-batching
(`embedding_service.py`, `embedder.py`), HTML-to-text conversion
(`spiders/hiring_cafe.py`), search pagination (`spiders/hiring_cafe.py`),
and hybrid search merging and caching (`hybrid_search.py`).

Python strings are modelled as Lean `String`s (sequences of unicode scalar
values, matching Python's sequences of code points); Python `None`-able values
as `Option`; Python dicts carrying job data as Lean structures.  External
libraries (hashlib, html.unescape, trafilatura, the HTTP client, the embedding
provider, asyncpg) are modelled explicitly where their behaviour matters and
taken as function parameters where only their interface matters.
-/

/-! ## Python string primitives

Models of the Python `str` operations used by the normalizers:
`str.lower`, `str.strip`, `str.split`/`' '.join` and the regex substitution
`re.sub(r'[^\w\s]', ' ', s)`.  `\w`/`\s` are modelled at ASCII level
(`[A-Za-z0-9_]` and the six ASCII whitespace characters), which is exact for
all ASCII input. -/

/-- The six characters Python's `str.split()` / `str.strip()` and the regex
class `\s` treat as whitespace (ASCII fragment). -/
def isPySpace (c : Char) : Bool :=
  c = ' ' || c = '\t' || c = '\n' || c = '\x0b' || c = '\x0c' || c = '\r'

/-- Python regex `\w` membership (ASCII fragment): letters, digits, underscore. -/
def isWordChar (c : Char) : Bool :=
  c.isAlphanum || c = '_'

/-- `str.lower()` (ASCII fragment), character-wise. -/
def pyLower (l : List Char) : List Char :=
  l.map Char.toLower

/-- `str.strip()`: drop leading and trailing whitespace. -/
def pyStrip (l : List Char) : List Char :=
  ((l.dropWhile isPySpace).reverse.dropWhile isPySpace).reverse

/-- `re.sub(r'[^\w\s]', ' ', s)`: every character that is neither a word
character nor whitespace becomes a single space. -/
def subNonWordToSpace (l : List Char) : List Char :=
  l.map (fun c => if isWordChar c || isPySpace c then c else ' ')

/-- Helper for `str.split()`: accumulate the current word (reversed) while
scanning. -/
def splitWsAux : List Char → List Char → List (List Char)
  | [], cur => if cur.isEmpty then [] else [cur.reverse]
  | c :: rest, cur =>
    if isPySpace c then
      if cur.isEmpty then splitWsAux rest []
      else cur.reverse :: splitWsAux rest []
    else splitWsAux rest (c :: cur)

/-- `str.split()` with no argument: split on whitespace runs, no empty parts. -/
def pySplitWs (l : List Char) : List (List Char) :=
  splitWsAux l []

/-- `' '.join(s.split())`: collapse whitespace runs to single spaces and trim. -/
def squeezeWs (l : List Char) : List Char :=
  List.intercalate [' '] (pySplitWs l)

/-! ## SHA-256 (model of Python `hashlib.sha256(...).hexdigest()`)

`generate_fingerprint` calls into the `hashlib` standard library.  The hash is
modelled down to the byte level (FIPS 180-4 over the UTF-8 encoding of the
input), with 32-bit words represented as `Nat` reduced mod `2^32`. -/

/-- UTF-8 encoding of one unicode scalar value (model of `str.encode('utf-8')`,
per code point). -/
def utf8Bytes (c : Char) : List Nat :=
  let n := c.toNat
  if n < 0x80 then [n]
  else if n < 0x800 then
    [0xC0 ||| (n >>> 6), 0x80 ||| (n % 64)]
  else if n < 0x10000 then
    [0xE0 ||| (n >>> 12), 0x80 ||| ((n >>> 6) % 64), 0x80 ||| (n % 64)]
  else
    [0xF0 ||| (n >>> 18), 0x80 ||| ((n >>> 12) % 64), 0x80 ||| ((n >>> 6) % 64),
     0x80 ||| (n % 64)]

/-- `s.encode('utf-8')` as a byte list. -/
def strUtf8 (s : String) : List Nat :=
  s.data.foldr (fun c acc => utf8Bytes c ++ acc) []

/-- Split a list into consecutive chunks of `max k 1` elements (the slicing
loop `for i in range(0, len(l), k)` over `l[i:i+k]`; `k = 0` would raise in
Python and is clamped here to keep the function total). -/
def chunksOf (k : Nat) (l : List α) : List (List α) :=
  match l with
  | [] => []
  | x :: xs => (x :: xs).take (k.max 1) :: chunksOf k ((x :: xs).drop (k.max 1))
termination_by l.length
decreasing_by
  have hk : 1 ≤ k.max 1 := Nat.le_max_right k 1
  simp only [List.length_drop, List.length_cons]
  omega

/-- 32-bit rotate right (operand assumed `< 2^32`). -/
def rotr32 (n x : Nat) : Nat :=
  ((x >>> n) ||| (x <<< (32 - n))) % 2 ^ 32

/-- SHA-256 small sigma 0. -/
def sigma0 (x : Nat) : Nat := rotr32 7 x ^^^ rotr32 18 x ^^^ (x >>> 3)

/-- SHA-256 small sigma 1. -/
def sigma1 (x : Nat) : Nat := rotr32 17 x ^^^ rotr32 19 x ^^^ (x >>> 10)

/-- SHA-256 big sigma 0. -/
def bigSigma0 (x : Nat) : Nat := rotr32 2 x ^^^ rotr32 13 x ^^^ rotr32 22 x

/-- SHA-256 big sigma 1. -/
def bigSigma1 (x : Nat) : Nat := rotr32 6 x ^^^ rotr32 11 x ^^^ rotr32 25 x

/-- SHA-256 choice function (`¬x` taken inside 32 bits). -/
def chFn (x y z : Nat) : Nat := (x &&& y) ^^^ ((0xffffffff ^^^ x) &&& z)

/-- SHA-256 majority function. -/
def majFn (x y z : Nat) : Nat := (x &&& y) ^^^ (x &&& z) ^^^ (y &&& z)

/-- SHA-256 round constants (FIPS 180-4, written in decimal). -/
def sha256K : List Nat :=
  [1116352408, 1899447441, 3049323471, 3921009573, 961987163,
   1508970993, 2453635748, 2870763221, 3624381080, 310598401,
   607225278, 1426881987, 1925078388, 2162078206, 2614888103,
   3248222580, 3835390401, 4022224774, 264347078, 604807628,
   770255983, 1249150122, 1555081692, 1996064986, 2554220882,
   2821834349, 2952996808, 3210313671, 3336571891, 3584528711,
   113926993, 338241895, 666307205, 773529912, 1294757372,
   1396182291, 1695183700, 1986661051, 2177026350, 2456956037,
   2730485921, 2820302411, 3259730800, 3345764771, 3516065817,
   3600352804, 4094571909, 275423344, 430227734, 506948616,
   659060556, 883997877, 958139571, 1322822218, 1537002063,
   1747873779, 1955562222, 2024104815, 2227730452, 2361852424,
   2428436474, 2756734187, 3204031479, 3329325298]

/-- SHA-256 initial hash value (FIPS 180-4, written in decimal). -/
def sha256H0 : List Nat :=
  [1779033703, 3144134277, 1013904242, 2773480762,
   1359893119, 2600822924, 528734635, 1541459225]

/-- Big-endian bytes of `n`, `count` bytes wide. -/
def beBytes (count n : Nat) : List Nat :=
  (List.range count).map (fun i => n >>> ((count - 1 - i) * 8) % 256)

/-- SHA-256 message padding: `0x80`, zeros to 56 mod 64, then the 64-bit
bit-length. -/
def shaPad (msg : List Nat) : List Nat :=
  let padZeros := (64 + 55 - msg.length % 64) % 64
  msg ++ [0x80] ++ List.replicate padZeros 0 ++ beBytes 8 (msg.length * 8)

/-- Combine a 4-byte chunk into one big-endian 32-bit word. -/
def wordOfBytes (bs : List Nat) : Nat :=
  bs.foldl (fun acc b => acc * 256 + b) 0

/-- Extend a 16-word block schedule by `n` further words. -/
def extendSchedule (w : List Nat) : Nat → List Nat
  | 0 => w
  | n + 1 =>
    let i := w.length
    let nw := (sigma1 (w.getD (i - 2) 0) + w.getD (i - 7) 0 +
               sigma0 (w.getD (i - 15) 0) + w.getD (i - 16) 0) % 2 ^ 32
    extendSchedule (w ++ [nw]) n

/-- One SHA-256 round on the `[a,b,c,d,e,f,g,h]` state. -/
def sha256Round (st : List Nat) (k w : Nat) : List Nat :=
  let a := st.getD 0 0
  let b := st.getD 1 0
  let c := st.getD 2 0
  let d := st.getD 3 0
  let e := st.getD 4 0
  let f := st.getD 5 0
  let g := st.getD 6 0
  let h := st.getD 7 0
  let t1 := (h + bigSigma1 e + chFn e f g + k + w) % 2 ^ 32
  let t2 := (bigSigma0 a + majFn a b c) % 2 ^ 32
  [(t1 + t2) % 2 ^ 32, a, b, c, (d + t1) % 2 ^ 32, e, f, g]

/-- Compress one 64-byte block into the running hash. -/
def sha256Block (h : List Nat) (block : List Nat) : List Nat :=
  let w := extendSchedule ((chunksOf 4 block).map wordOfBytes) 48
  let st := (sha256K.zip w).foldl (fun st kw => sha256Round st kw.1 kw.2) h
  h.zipWith (fun x y => (x + y) % 2 ^ 32) st

/-- SHA-256 digest of a byte string, as eight 32-bit words. -/
def sha256Words (msg : List Nat) : List Nat :=
  (chunksOf 64 (shaPad msg)).foldl sha256Block sha256H0

/-- One lowercase hex digit. -/
def hexDigit (n : Nat) : Char :=
  if n < 10 then Char.ofNat (48 + n) else Char.ofNat (87 + n)

/-- Eight lowercase hex digits of a 32-bit word, most significant first. -/
def wordHex (x : Nat) : List Char :=
  (List.range 8).map (fun i => hexDigit (x >>> ((7 - i) * 4) % 16))

/-- `hashlib.sha256(s.encode('utf-8')).hexdigest()`. -/
def sha256Hex (s : String) : String :=
  ⟨((sha256Words (strUtf8 s)).map wordHex).flatten⟩

/-! ## Fingerprint normalization (`middlewares/deduplication.py`) -/

/-- `normalize_location` from `middlewares/deduplication.py`: lowercase,
replace `[^\w\s]` by spaces, collapse whitespace. -/
def normalize_location (location : String) : String :=
  if location = "" then ""
  else ⟨squeezeWs (subNonWordToSpace (pyLower location.data))⟩

/-- `normalize_title` from `middlewares/deduplication.py`: lowercase + strip,
replace `[^\w\s]` by spaces, collapse whitespace. -/
def normalize_title (title : String) : String :=
  if title = "" then ""
  else ⟨squeezeWs (subNonWordToSpace (pyStrip (pyLower title.data)))⟩

/-- `normalize_company` from `middlewares/deduplication.py`: same steps as
`normalize_title`. -/
def normalize_company (company : String) : String :=
  if company = "" then ""
  else ⟨squeezeWs (subNonWordToSpace (pyStrip (pyLower company.data)))⟩

/-- `generate_fingerprint` from `middlewares/deduplication.py`: SHA-256 hex
digest of the pipe-joined normalized title, company and location. -/
def generate_fingerprint (title company location : String) : String :=
  sha256Hex (normalize_title title ++ "|" ++ normalize_company company ++ "|" ++
             normalize_location location)

/-- `generate_fingerprint` from `models.py`: unlike the middleware version, the
title and company are only lowercased and stripped (punctuation is kept);
only the location goes through `normalize_location`. -/
def generateFingerprintModels (title company location : String) : String :=
  let nt := if title = "" then "" else (⟨pyStrip (pyLower title.data)⟩ : String)
  let nc := if company = "" then "" else (⟨pyStrip (pyLower company.data)⟩ : String)
  sha256Hex (nt ++ "|" ++ nc ++ "|" ++ normalize_location location)

/-! ### Digest-shape lemmas -/

theorem foldl_preserves {α β : Type} (P : α → Prop) (f : α → β → α)
    (hstep : ∀ st x, P st → P (f st x)) :
    ∀ (l : List β) (init : α), P init → P (l.foldl f init)
  | [], _, h => h
  | _ :: xs, init, h => foldl_preserves P f hstep xs _ (hstep init _ h)

theorem sha256Round_length (st : List Nat) (k w : Nat) :
    (sha256Round st k w).length = 8 := rfl

theorem sha256Block_length (h block : List Nat) (hh : h.length = 8) :
    (sha256Block h block).length = 8 := by
  have hst : ((sha256K.zip (extendSchedule ((chunksOf 4 block).map wordOfBytes) 48)).foldl
      (fun st kw => sha256Round st kw.1 kw.2) h).length = 8 := by
    rcases List.zip sha256K (extendSchedule ((chunksOf 4 block).map wordOfBytes) 48) with _ | ⟨p, rest⟩
    · simpa using hh
    · exact foldl_preserves (fun st => st.length = 8) _
        (fun st x _ => sha256Round_length st x.1 x.2) rest _ (sha256Round_length h p.1 p.2)
  simp [sha256Block, List.length_zipWith, hh, hst]

theorem sha256Words_length (msg : List Nat) : (sha256Words msg).length = 8 := by
  exact foldl_preserves (fun h => h.length = 8) sha256Block
    (fun st x hst => sha256Block_length st x hst) _ sha256H0 rfl

theorem wordHex_length (x : Nat) : (wordHex x).length = 8 := by
  simp [wordHex]

theorem sha256Hex_length (s : String) : (sha256Hex s).length = 64 := by
  show (((sha256Words (strUtf8 s)).map wordHex).flatten).length = 64
  rw [List.length_flatten]
  have h1 : ((sha256Words (strUtf8 s)).map wordHex).map List.length
      = ((sha256Words (strUtf8 s)).map wordHex).map (fun _ => 8) := by
    apply List.map_congr_left
    intro a ha
    rcases List.mem_map.mp ha with ⟨x, _, rfl⟩
    exact wordHex_length x
  rw [h1, List.map_const', List.sum_replicate, List.length_map,
      sha256Words_length, smul_eq_mul]

/-! ## Claim C2: fingerprint determinism and normalization convergence -/

/-- C2.  `generate_fingerprint(title, company, location)` is deterministic
(repeated calls agree), always returns a 64-character hex SHA-256 digest, and
any two inputs whose fields normalize identically (for example
`"Sr. Developer"` versus `"sr developer"`) produce the same fingerprint. -/
theorem fingerprint_deterministic_and_convergent
    (t c l t₂ c₂ l₂ : String)
    (ht : normalize_title t = normalize_title t₂)
    (hc : normalize_company c = normalize_company c₂)
    (hl : normalize_location l = normalize_location l₂) :
    generate_fingerprint t c l = generate_fingerprint t c l ∧
    (generate_fingerprint t c l).length = 64 ∧
    generate_fingerprint t c l = generate_fingerprint t₂ c₂ l₂ := by
  refine ⟨rfl, sha256Hex_length _, ?_⟩
  unfold generate_fingerprint
  rw [ht, hc, hl]

/-- Witness for C2 at the spec's example: `"Sr. Developer"` and
`"sr developer"` normalize identically, hence share a fingerprint. -/
theorem fingerprint_deterministic_and_convergent_witness :
    normalize_title "Sr. Developer" = normalize_title "sr developer" ∧
    generate_fingerprint "Sr. Developer" "Acme Corp." "SF, CA" =
      generate_fingerprint "sr developer" "acme corp" "sf ca" :=
  ⟨by decide,
   (fingerprint_deterministic_and_convergent "Sr. Developer" "Acme Corp." "SF, CA"
      "sr developer" "acme corp" "sf ca" (by decide) (by decide) (by decide)).2.2⟩

/-! ## Deduplication middleware and processing pipeline
(`middlewares/deduplication.py`, `pipeline.py`)

The pipeline's cleanser stage delegates to `cleanse_api_content` /
`cleanse_html` (`cleanser.py`), which rest on trafilatura and a large regex
battery; they are taken as opaque function parameters here — every theorem
below holds for arbitrary cleaning functions.  The database's
`fingerprint_exists` and `insert_job` calls are external I/O and are likewise
parameters. -/

/-- Python truthiness of an optional string (`None` and `""` are falsy). -/
def truthy : Option String → Bool
  | none => false
  | some s => s ≠ ""

/-- Python `a or b` for an optional string `a` and default `b`. -/
def pyOr (o : Option String) (dflt : String) : String :=
  match o with
  | none => dflt
  | some s => if s = "" then dflt else s

/-- `dict.get(key, '')` when the stored value may be `None`. -/
def optStr (o : Option String) : String := o.getD ""

/-- Python slicing `s[:n]`. -/
def pySlice (s : String) (n : Nat) : String := ⟨s.data.take n⟩

/-- A raw `JobListing` (`models.py`), restricted to the fields the pipeline
reads. -/
structure JobListing where
  url : String := ""
  raw_html : Option String := none
  source : String := ""
  job_title : Option String := none
  company_name : Option String := none
  location : Option String := none
  job_description : Option String := none
  salary_range : Option String := none
  job_type : Option String := none
  remote_status : Option String := none
  application_link : Option String := none
  description_clean : Option String := none
deriving DecidableEq

/-- The job dict flowing through the pipeline stages (built by `_clean_job`,
extended by `_deduplicate_job` and `_embed_job`). -/
structure JobData where
  job_title : Option String := none
  company_name : Option String := none
  location : Option String := none
  job_description : String := ""
  salary_range : Option String := none
  job_type : Option String := none
  remote_status : String := "unknown"
  application_link : String := ""
  job_source : String := ""
  url : String := ""
  fingerprint : String := ""
  job_id : String := ""
  embedding : Option (List ℚ) := none
deriving DecidableEq

/-- `JobProcessingPipeline._clean_job`: pick the cleaning route by source
shape, reject empty or sub-100-character results, build the job dict.
`cleanseApi` models `cleanse_api_content` (total, returns a string) and
`cleanseHtml` models `cleanse_html` (may return `None`). -/
def cleanJob (cleanseApi : String → String → String)
    (cleanseHtml : String → String → Option String) (job : JobListing) :
    Option JobData :=
  let cleaned : Option String :=
    if truthy job.description_clean then
      some (cleanseApi (optStr job.description_clean) job.source)
    else if truthy job.raw_html then
      cleanseHtml (optStr job.raw_html) job.source
    else if truthy job.job_description then
      some (cleanseApi (optStr job.job_description) job.source)
    else none
  match cleaned with
  | none => none
  | some c =>
    if c = "" ∨ c.length < 100 then none
    else some
      { job_title := job.job_title
        company_name := job.company_name
        location := job.location
        job_description := c
        salary_range := job.salary_range
        job_type := job.job_type
        remote_status := pyOr job.remote_status "unknown"
        application_link := pyOr job.application_link job.url
        job_source := job.source
        url := job.url }

/-- `DeduplicationMiddleware.is_duplicate`: fingerprint, batch-cache lookup,
database lookup, and (on a miss) cache insertion.  Returns
`((is_duplicate, fingerprint), updated cache)`. -/
def isDuplicate (dbHas : String → Bool) (cache : List String)
    (title company location : String) : (Bool × String) × List String :=
  let fp := generate_fingerprint title company location
  if fp ∈ cache then ((true, fp), cache)
  else if dbHas fp then ((true, fp), cache)
  else ((false, fp), fp :: cache)

/-- The fingerprint `DeduplicationMiddleware.process_job` computes for a job
dict (`job_data.get` on the title/company/location keys). -/
def dedupFingerprintOf (d : JobData) : String :=
  generate_fingerprint (optStr d.job_title) (optStr d.company_name)
    (optStr d.location)

/-- The record `_deduplicate_job` forwards on a dedup miss: the job dict with
its fingerprint and the derived `job_id = fingerprint[:16]`. -/
def dedupedOf (d : JobData) : JobData :=
  { d with fingerprint := dedupFingerprintOf d
           job_id := pySlice (dedupFingerprintOf d) 16 }

/-- `JobProcessingPipeline._deduplicate_job`: run the middleware check; on a
duplicate drop the record, otherwise attach fingerprint and `job_id`. -/
def dedupJob (dbHas : String → Bool) (cache : List String) (d : JobData) :
    Option JobData × List String :=
  let r := isDuplicate dbHas cache (optStr d.job_title) (optStr d.company_name)
    (optStr d.location)
  if r.1.1 then (none, r.2)
  else (some { d with fingerprint := r.1.2, job_id := pySlice r.1.2 16 }, r.2)

/-- State threaded through the clean/dedup loop of `process_batch`: the
middleware's batch-local fingerprint cache and the `jobs_to_embed`
accumulator. -/
structure BatchState where
  cache : List String := []
  acc : List JobData := []
deriving DecidableEq

/-- One iteration of the clean/dedup loop of
`JobProcessingPipeline.process_batch`. -/
def batchStep (cleanseApi : String → String → String)
    (cleanseHtml : String → String → Option String) (dbHas : String → Bool)
    (st : BatchState) (job : JobListing) : BatchState :=
  match cleanJob cleanseApi cleanseHtml job with
  | none => st
  | some jd =>
    match dedupJob dbHas st.cache jd with
    | (none, cache2) => { cache := cache2, acc := st.acc }
    | (some d, cache2) => { cache := cache2, acc := st.acc ++ [d] }

/-- Stages 1–2 of `process_batch`: clean and deduplicate every job, collecting
the non-duplicates (`jobs_to_embed`), starting from an empty batch cache. -/
def batchCleanDedup (cleanseApi : String → String → String)
    (cleanseHtml : String → String → Option String) (dbHas : String → Bool)
    (jobs : List JobListing) : BatchState :=
  jobs.foldl (batchStep cleanseApi cleanseHtml dbHas) {}

/-- Stage 3 of `process_batch`: if an embedding service is configured, attach
each record's embedding (`embed_jobs` assigns results positionally, which is
per-record application; `embedOpt = none` models a pipeline built without an
embedder). -/
def embedStage (embedOpt : Option (JobData → Option (List ℚ)))
    (l : List JobData) : List JobData :=
  match embedOpt with
  | some f => l.map (fun d => { d with embedding := f d })
  | none => l

/-- The per-record effect of `embedStage`. -/
def embedApply (embedOpt : Option (JobData → Option (List ℚ)))
    (d : JobData) : JobData :=
  match embedOpt with
  | some f => { d with embedding := f d }
  | none => d

/-- `JobProcessingPipeline.process_batch`: clean, deduplicate, embed, then
store each survivor (`storeOk` models `_store_job`, i.e. model validation plus
the database insert result).  Returns the successfully stored records. -/
def processBatch (cleanseApi : String → String → String)
    (cleanseHtml : String → String → Option String) (dbHas : String → Bool)
    (embedOpt : Option (JobData → Option (List ℚ)))
    (storeOk : JobData → Bool) (jobs : List JobListing) : List JobData :=
  let toEmbed := (batchCleanDedup cleanseApi cleanseHtml dbHas jobs).acc
  (embedStage embedOpt toEmbed).filter storeOk

/-! ### Dedup behaviour lemmas -/

theorem dedupJob_eq (dbHas : String → Bool) (cache : List String) (d : JobData) :
    dedupJob dbHas cache d =
      if dedupFingerprintOf d ∈ cache ∨ dbHas (dedupFingerprintOf d) = true
      then (none, cache)
      else (some (dedupedOf d), dedupFingerprintOf d :: cache) := by
  unfold dedupJob isDuplicate dedupedOf dedupFingerprintOf
  set fp := generate_fingerprint (optStr d.job_title) (optStr d.company_name)
    (optStr d.location) with hfp
  by_cases h1 : fp ∈ cache
  · simp [h1]
  · by_cases h2 : dbHas fp = true
    · simp [h1, h2]
    · simp [h1, h2]

/-- `batchStep` written out by cases. -/
theorem batchStep_eq (cleanseApi : String → String → String)
    (cleanseHtml : String → String → Option String) (dbHas : String → Bool)
    (st : BatchState) (j : JobListing) :
    batchStep cleanseApi cleanseHtml dbHas st j =
      match cleanJob cleanseApi cleanseHtml j with
      | none => st
      | some jd =>
        if dedupFingerprintOf jd ∈ st.cache ∨ dbHas (dedupFingerprintOf jd) = true
        then { cache := st.cache, acc := st.acc }
        else { cache := dedupFingerprintOf jd :: st.cache
               acc := st.acc ++ [dedupedOf jd] } := by
  unfold batchStep
  cases cleanJob cleanseApi cleanseHtml j with
  | none => rfl
  | some jd =>
    dsimp only
    rw [dedupJob_eq]
    by_cases h : dedupFingerprintOf jd ∈ st.cache ∨ dbHas (dedupFingerprintOf jd) = true
    · rw [if_pos h, if_pos h]
    · rw [if_neg h, if_neg h]

/-- Stepping `process_batch` over one job that does not clean to the watched
fingerprint `f` changes neither the `f`-entries of `jobs_to_embed` nor whether
`f` sits in the batch cache. -/
theorem batchStep_no_f (cleanseApi : String → String → String)
    (cleanseHtml : String → String → Option String) (dbHas : String → Bool)
    (f : String) (j : JobListing) (st : BatchState)
    (hno : ∀ d, cleanJob cleanseApi cleanseHtml j = some d →
      dedupFingerprintOf d ≠ f) :
    ((batchStep cleanseApi cleanseHtml dbHas st j).acc.filter
        (fun e => e.fingerprint == f) =
      st.acc.filter (fun e => e.fingerprint == f)) ∧
    (f ∈ (batchStep cleanseApi cleanseHtml dbHas st j).cache ↔ f ∈ st.cache) := by
  rw [batchStep_eq]
  cases hc : cleanJob cleanseApi cleanseHtml j with
  | none => exact ⟨rfl, Iff.rfl⟩
  | some d =>
    have hfp : dedupFingerprintOf d ≠ f := hno d hc
    dsimp only
    by_cases hdup : dedupFingerprintOf d ∈ st.cache ∨ dbHas (dedupFingerprintOf d) = true
    · rw [if_pos hdup]
      exact ⟨rfl, Iff.rfl⟩
    · rw [if_neg hdup]
      refine ⟨?_, ?_⟩
      · show (st.acc ++ [dedupedOf d]).filter (fun e => e.fingerprint == f) = _
        rw [List.filter_append]
        have hq : ((dedupedOf d).fingerprint == f) = false := by
          simpa [dedupedOf] using hfp
        simp [List.filter, hq]
      · show f ∈ dedupFingerprintOf d :: st.cache ↔ f ∈ st.cache
        simp [List.mem_cons, Ne.symm hfp]

/-- Folding `process_batch` over a segment of jobs none of which cleans to the
watched fingerprint `f` preserves the `f`-entries of `jobs_to_embed` and
the `f`-membership of the batch cache. -/
theorem batch_seg_no_f (cleanseApi : String → String → String)
    (cleanseHtml : String → String → Option String) (dbHas : String → Bool)
    (f : String) :
    ∀ (jobs : List JobListing),
      (∀ j ∈ jobs, ∀ d, cleanJob cleanseApi cleanseHtml j = some d →
        dedupFingerprintOf d ≠ f) →
      ∀ st : BatchState,
        ((jobs.foldl (batchStep cleanseApi cleanseHtml dbHas) st).acc.filter
            (fun e => e.fingerprint == f) =
          st.acc.filter (fun e => e.fingerprint == f)) ∧
        (f ∈ (jobs.foldl (batchStep cleanseApi cleanseHtml dbHas) st).cache ↔
          f ∈ st.cache)
  | [], _, st => ⟨rfl, Iff.rfl⟩
  | j :: rest, hno, st => by
    have hstep := batchStep_no_f cleanseApi cleanseHtml dbHas f j st
      (fun d hd => hno j (by simp) d hd)
    have hrest := batch_seg_no_f cleanseApi cleanseHtml dbHas f rest
      (fun j₂ hj₂ d hd => hno j₂ (by simp [hj₂]) d hd)
      (batchStep cleanseApi cleanseHtml dbHas st j)
    exact ⟨by rw [List.foldl_cons, hrest.1, hstep.1],
           by rw [List.foldl_cons]; exact hrest.2.trans hstep.2⟩

/-! ## Claim C1: dedup idempotence within one batch -/

/-- C1.  Feeding the same record twice in one `process_batch` cycle stores it
exactly once: among all jobs carrying that record's fingerprint, exactly one
entry (the first pass) reaches `jobs_to_embed`, and exactly one processed
record is stored; the second pass is caught by the batch-local fingerprint
cache and reaches neither the embed nor the store stage. -/
theorem dedup_idempotence
    (cleanseApi : String → String → String)
    (cleanseHtml : String → String → Option String)
    (dbHas : String → Bool)
    (embedOpt : Option (JobData → Option (List ℚ)))
    (storeOk : JobData → Bool)
    (l₁ l₂ l₃ : List JobListing) (j : JobListing) (d : JobData)
    (hclean : cleanJob cleanseApi cleanseHtml j = some d)
    (hdb : dbHas (dedupFingerprintOf d) = false)
    (hothers : ∀ j₂ ∈ l₁ ++ l₂ ++ l₃, ∀ d₂,
      cleanJob cleanseApi cleanseHtml j₂ = some d₂ →
      dedupFingerprintOf d₂ ≠ dedupFingerprintOf d)
    (hstore : storeOk (embedApply embedOpt (dedupedOf d)) = true) :
    ((batchCleanDedup cleanseApi cleanseHtml dbHas
        (l₁ ++ (j :: (l₂ ++ (j :: l₃))))).acc.filter
        (fun e => e.fingerprint == dedupFingerprintOf d) = [dedupedOf d]) ∧
    ((processBatch cleanseApi cleanseHtml dbHas embedOpt storeOk
        (l₁ ++ (j :: (l₂ ++ (j :: l₃))))).filter
        (fun e => e.fingerprint == dedupFingerprintOf d)
      = [embedApply embedOpt (dedupedOf d)]) := by
  have hpf : ((dedupedOf d).fingerprint == dedupFingerprintOf d) = true := by
    simp [dedupedOf]
  -- state after the l₁ segment
  have hseg₁ := batch_seg_no_f cleanseApi cleanseHtml dbHas (dedupFingerprintOf d) l₁
    (fun j₂ hj₂ d₂ hd₂ => hothers j₂ (by simp [hj₂]) d₂ hd₂) {}
  have hacc₁ : ((l₁.foldl (batchStep cleanseApi cleanseHtml dbHas) {}).acc.filter
      (fun e => e.fingerprint == dedupFingerprintOf d)) = [] := by
    simpa using hseg₁.1
  have hcache₁ : ¬ dedupFingerprintOf d ∈
      (l₁.foldl (batchStep cleanseApi cleanseHtml dbHas) {}).cache := by
    intro hmem
    have := hseg₁.2.mp hmem
    simp at this
  -- the first pass of `j` goes through: cache gains the fingerprint,
  -- `jobs_to_embed` gains the processed record
  have hst₂ : batchStep cleanseApi cleanseHtml dbHas
      (l₁.foldl (batchStep cleanseApi cleanseHtml dbHas) {}) j =
      { cache := dedupFingerprintOf d ::
          (l₁.foldl (batchStep cleanseApi cleanseHtml dbHas) {}).cache
        acc := (l₁.foldl (batchStep cleanseApi cleanseHtml dbHas) {}).acc ++
          [dedupedOf d] } := by
    rw [batchStep_eq, hclean]
    dsimp only
    rw [if_neg]
    rintro (h | h)
    · exact hcache₁ h
    · rw [hdb] at h
      exact Bool.false_ne_true h
  have hAcc₂ : ((batchStep cleanseApi cleanseHtml dbHas
      (l₁.foldl (batchStep cleanseApi cleanseHtml dbHas) {}) j).acc.filter
      (fun e => e.fingerprint == dedupFingerprintOf d)) = [dedupedOf d] := by
    rw [hst₂]
    show ((l₁.foldl (batchStep cleanseApi cleanseHtml dbHas) {}).acc ++
      [dedupedOf d]).filter (fun e => e.fingerprint == dedupFingerprintOf d) = _
    rw [List.filter_append, hacc₁]
    simp [List.filter, hpf]
  have hCache₂ : dedupFingerprintOf d ∈ (batchStep cleanseApi cleanseHtml dbHas
      (l₁.foldl (batchStep cleanseApi cleanseHtml dbHas) {}) j).cache := by
    rw [hst₂]
    exact List.mem_cons_self _ _
  -- the l₂ segment preserves both facts
  have hseg₂ := batch_seg_no_f cleanseApi cleanseHtml dbHas (dedupFingerprintOf d) l₂
    (fun j₂ hj₂ d₂ hd₂ => hothers j₂ (by simp [hj₂]) d₂ hd₂)
    (batchStep cleanseApi cleanseHtml dbHas
      (l₁.foldl (batchStep cleanseApi cleanseHtml dbHas) {}) j)
  -- the second pass of `j` is a batch-cache duplicate: the state's accumulator
  -- and cache are unchanged
  have hst₄ : batchStep cleanseApi cleanseHtml dbHas
      (l₂.foldl (batchStep cleanseApi cleanseHtml dbHas)
        (batchStep cleanseApi cleanseHtml dbHas
          (l₁.foldl (batchStep cleanseApi cleanseHtml dbHas) {}) j)) j =
      { cache := (l₂.foldl (batchStep cleanseApi cleanseHtml dbHas)
          (batchStep cleanseApi cleanseHtml dbHas
            (l₁.foldl (batchStep cleanseApi cleanseHtml dbHas) {}) j)).cache
        acc := (l₂.foldl (batchStep cleanseApi cleanseHtml dbHas)
          (batchStep cleanseApi cleanseHtml dbHas
            (l₁.foldl (batchStep cleanseApi cleanseHtml dbHas) {}) j)).acc } := by
    rw [batchStep_eq, hclean]
    dsimp only
    rw [if_pos (Or.inl (hseg₂.2.mpr hCache₂))]
  -- conclusion for `jobs_to_embed`
  have hmain : ((batchCleanDedup cleanseApi cleanseHtml dbHas
      (l₁ ++ (j :: (l₂ ++ (j :: l₃))))).acc.filter
      (fun e => e.fingerprint == dedupFingerprintOf d)) = [dedupedOf d] := by
    unfold batchCleanDedup
    rw [List.foldl_append, List.foldl_cons, List.foldl_append, List.foldl_cons]
    have hseg₃ := batch_seg_no_f cleanseApi cleanseHtml dbHas (dedupFingerprintOf d) l₃
      (fun j₂ hj₂ d₂ hd₂ => hothers j₂ (by simp [hj₂]) d₂ hd₂)
      (batchStep cleanseApi cleanseHtml dbHas
        (l₂.foldl (batchStep cleanseApi cleanseHtml dbHas)
          (batchStep cleanseApi cleanseHtml dbHas
            (l₁.foldl (batchStep cleanseApi cleanseHtml dbHas) {}) j)) j)
    rw [hseg₃.1, hst₄]
    show ((l₂.foldl (batchStep cleanseApi cleanseHtml dbHas)
      (batchStep cleanseApi cleanseHtml dbHas
        (l₁.foldl (batchStep cleanseApi cleanseHtml dbHas) {}) j)).acc.filter
      (fun e => e.fingerprint == dedupFingerprintOf d)) = _
    rw [hseg₂.1, hAcc₂]
  refine ⟨hmain, ?_⟩
  -- conclusion for the stored records
  unfold processBatch
  have hfe : (embedStage embedOpt ((batchCleanDedup cleanseApi cleanseHtml dbHas
      (l₁ ++ (j :: (l₂ ++ (j :: l₃))))).acc)).filter
      (fun e => e.fingerprint == dedupFingerprintOf d)
      = [embedApply embedOpt (dedupedOf d)] := by
    cases embedOpt with
    | none =>
      show ((batchCleanDedup cleanseApi cleanseHtml dbHas
        (l₁ ++ (j :: (l₂ ++ (j :: l₃))))).acc.filter
        (fun e => e.fingerprint == dedupFingerprintOf d)) = _
      rw [hmain]
      rfl
    | some g =>
      show (((batchCleanDedup cleanseApi cleanseHtml dbHas
        (l₁ ++ (j :: (l₂ ++ (j :: l₃))))).acc.map
          (fun e => { e with embedding := g e })).filter
        (fun e => e.fingerprint == dedupFingerprintOf d)) = _
      rw [List.filter_map]
      have : ((batchCleanDedup cleanseApi cleanseHtml dbHas
          (l₁ ++ (j :: (l₂ ++ (j :: l₃))))).acc.filter
          ((fun e => e.fingerprint == dedupFingerprintOf d) ∘
            (fun e => { e with embedding := g e })))
          = [dedupedOf d] := by
        have hcong : ((batchCleanDedup cleanseApi cleanseHtml dbHas
            (l₁ ++ (j :: (l₂ ++ (j :: l₃))))).acc.filter
            ((fun e => e.fingerprint == dedupFingerprintOf d) ∘
              (fun e => { e with embedding := g e })))
            = ((batchCleanDedup cleanseApi cleanseHtml dbHas
            (l₁ ++ (j :: (l₂ ++ (j :: l₃))))).acc.filter
            (fun e => e.fingerprint == dedupFingerprintOf d)) :=
          List.filter_congr (fun x _ => rfl)
        rw [hcong, hmain]
      rw [this]
      rfl
  rw [List.filter_comm, hfe]
  simp [List.filter, hstore]

/-- A cleaned description comfortably above the 100-character minimum, used by
the concrete witness instances. -/
def wDesc : String :=
  "We are looking for a software engineer to build and maintain data pipelines, write tests, review code, and collaborate with the team on a daily basis."

/-- Concrete raw job listing for the witnesses. -/
def wJob : JobListing :=
  { url := "https://example.com/jobs/1"
    source := "hiring_cafe"
    job_title := some "Engineer"
    company_name := some "Acme"
    location := some "SF"
    description_clean := some wDesc }

/-- The job dict `_clean_job` produces for `wJob` under an identity cleanser. -/
def wData : JobData :=
  { job_title := some "Engineer"
    company_name := some "Acme"
    location := some "SF"
    job_description := wDesc
    remote_status := "unknown"
    application_link := "https://example.com/jobs/1"
    job_source := "hiring_cafe"
    url := "https://example.com/jobs/1" }

set_option maxRecDepth 100000 in
/-- Witness for C1: the same concrete listing fed twice in one batch ends up
in `jobs_to_embed` once and is stored once. -/
theorem dedup_idempotence_witness :
    cleanJob (fun c _ => c) (fun _ _ => none) wJob = some wData ∧
    ((batchCleanDedup (fun c _ => c) (fun _ _ => none) (fun _ => false)
        ([] ++ (wJob :: ([] ++ (wJob :: []))))).acc.filter
        (fun e => e.fingerprint == dedupFingerprintOf wData) = [dedupedOf wData]) ∧
    ((processBatch (fun c _ => c) (fun _ _ => none) (fun _ => false) none
        (fun _ => true) ([] ++ (wJob :: ([] ++ (wJob :: []))))).filter
        (fun e => e.fingerprint == dedupFingerprintOf wData)
      = [embedApply none (dedupedOf wData)]) := by
  have h := dedup_idempotence (fun c _ => c) (fun _ _ => none) (fun _ => false)
    none (fun _ => true) [] [] [] wJob wData (by rfl) rfl (by simp) rfl
  exact ⟨by rfl, h.1, h.2⟩

/-! ## Claim C9: `job_id` is the 16-character fingerprint prefix -/

/-- Every record `_deduplicate_job` forwards is the input dict with the
fingerprint attached and `job_id = fingerprint[:16]`. -/
theorem dedupJob_some_eq (dbHas : String → Bool) (cache cache₂ : List String)
    (jd d : JobData) (h : dedupJob dbHas cache jd = (some d, cache₂)) :
    d = dedupedOf jd := by
  rw [dedupJob_eq] at h
  by_cases hcond : dedupFingerprintOf jd ∈ cache ∨ dbHas (dedupFingerprintOf jd) = true
  · rw [if_pos hcond] at h
    simp at h
  · rw [if_neg hcond] at h
    have := congrArg Prod.fst h
    simpa using this.symm

/-- C9.  Every record passing deduplication carries
`job_id = fingerprint[:16]`; consequently records with equal fingerprints get
the same durable identifier, and distinct `job_id`s (as enforced by the jobs
table's UNIQUE constraint) force distinct 16-character fingerprint prefixes. -/
theorem jobId_eq_fingerprint16
    (dbHas : String → Bool) (cache cache₂ : List String) (jd d : JobData)
    (h : dedupJob dbHas cache jd = (some d, cache₂)) :
    d.job_id = pySlice d.fingerprint 16 ∧
    d.fingerprint = dedupFingerprintOf jd ∧
    (∀ (cacheB cacheB₂ : List String) (jd₂ d₂ : JobData),
      dedupJob dbHas cacheB jd₂ = (some d₂, cacheB₂) →
      (d.fingerprint = d₂.fingerprint → d.job_id = d₂.job_id) ∧
      (d.job_id ≠ d₂.job_id →
        pySlice d.fingerprint 16 ≠ pySlice d₂.fingerprint 16)) := by
  have hd := dedupJob_some_eq dbHas cache cache₂ jd d h
  subst hd
  refine ⟨rfl, rfl, ?_⟩
  intro cacheB cacheB₂ jd₂ d₂ h₂
  have hd₂ := dedupJob_some_eq dbHas cacheB cacheB₂ jd₂ d₂ h₂
  subst hd₂
  constructor
  · intro hfp
    show pySlice (dedupFingerprintOf jd) 16 = pySlice (dedupFingerprintOf jd₂) 16
    have : dedupFingerprintOf jd = dedupFingerprintOf jd₂ := hfp
    rw [this]
  · intro hne hps
    apply hne
    show pySlice (dedupFingerprintOf jd) 16 = pySlice (dedupFingerprintOf jd₂) 16
    exact hps

/-- Witness for C9 at a concrete record. -/
theorem jobId_eq_fingerprint16_witness :
    dedupJob (fun _ => false) [] wData =
      (some (dedupedOf wData), [dedupFingerprintOf wData]) ∧
    (dedupedOf wData).job_id = pySlice (dedupedOf wData).fingerprint 16 := by
  have hj : dedupJob (fun _ => false) [] wData =
      (some (dedupedOf wData), [dedupFingerprintOf wData]) := by
    rw [dedupJob_eq, if_neg]
    simp
  exact ⟨hj, (jobId_eq_fingerprint16 _ _ _ _ _ hj).1⟩

/-! ## Database upsert paths (`database.py`)

The jobs table is modelled as a list of rows (insertion-ordered); `NOW()` is a
`Nat` parameter.  The fields below are the ones the claims touch: the UNIQUE
`job_id`, the columns of the single-row upsert's `DO UPDATE SET`, the
`is_valid` flag (the schema's active flag) and the timestamps; the CHECK
constraints on title length, description length and URL shape are modelled,
since their violation is the one path where `insert_job` returns `False`.
(`posting_date`, `expiry_date` and `meta` are carried through unchanged by
both code paths and are omitted.) -/

/-- A stored row of the `jobs` table. -/
structure DbRow where
  job_id : String := ""
  job_title : String := ""
  company_name : Option String := none
  location : Option String := none
  job_type : Option String := none
  industry : Option String := none
  salary_range : Option String := none
  skills_required : List String := []
  job_description : String := ""
  application_link : String := ""
  job_source : String := ""
  remote_status : String := "unknown"
  embedding : Option (List ℚ) := none
  is_valid : Bool := true
  created_at : Nat := 0
  updated_at : Nat := 0
deriving DecidableEq

/-- The values bound into the INSERT statements (from the job dict). -/
structure InsertRecord where
  job_id : String := ""
  job_title : String := ""
  company_name : Option String := none
  location : Option String := none
  job_type : Option String := none
  industry : Option String := none
  salary_range : Option String := none
  skills_required : List String := []
  job_description : String := ""
  application_link : String := ""
  job_source : String := ""
  remote_status : String := "unknown"
  embedding : Option (List ℚ) := none
deriving DecidableEq

/-- Boolean list-prefix test (kernel-reducible). -/
def listStartsWith : List Char → List Char → Bool
  | _, [] => true
  | [], _ :: _ => false
  | c :: cs, p :: ps => c == p && listStartsWith cs ps

/-- The `valid_url` CHECK: `application_link ~* '^https?://'`. -/
def urlOk (s : String) : Bool :=
  let low := pyLower s.data
  listStartsWith low "http://".data || listStartsWith low "https://".data

/-- The three CHECK constraints of the `jobs` table. -/
def rowChecks (title desc link : String) : Bool :=
  decide (title.length > 5) && decide (desc.length > 100) && urlOk link

/-- The fresh row an INSERT creates (`is_valid` defaults to TRUE, both
timestamps to `NOW()`). -/
def rowOfRecord (now : Nat) (rec : InsertRecord) : DbRow :=
  { job_id := rec.job_id
    job_title := rec.job_title
    company_name := rec.company_name
    location := rec.location
    job_type := rec.job_type
    industry := rec.industry
    salary_range := rec.salary_range
    skills_required := rec.skills_required
    job_description := rec.job_description
    application_link := rec.application_link
    job_source := rec.job_source
    remote_status := rec.remote_status
    embedding := rec.embedding
    is_valid := true
    created_at := now
    updated_at := now }

/-- Effect of the single-row upsert's `ON CONFLICT (job_id) DO UPDATE SET`:
title, company, description, salary and `updated_at` are replaced; every
other column — including `is_valid` — is left as it was. -/
def upsertRow (now : Nat) (rec : InsertRecord) (r : DbRow) : DbRow :=
  { r with job_title := rec.job_title
           company_name := rec.company_name
           job_description := rec.job_description
           salary_range := rec.salary_range
           updated_at := now }

/-- `Database.insert_job`: insert, or on a `job_id` conflict update the
mutable columns; a CHECK violation is caught and reported as `False` with the
table unchanged. -/
def insertJob (now : Nat) (table : List DbRow) (rec : InsertRecord) :
    Bool × List DbRow :=
  match table.find? (fun r => r.job_id == rec.job_id) with
  | some r0 =>
    if rowChecks rec.job_title rec.job_description r0.application_link then
      (true, table.map (fun r =>
        if r.job_id == rec.job_id then upsertRow now rec r else r))
    else (false, table)
  | none =>
    if rowChecks rec.job_title rec.job_description rec.application_link then
      (true, table ++ [rowOfRecord now rec])
    else (false, table)

/-- `Database.insert_jobs_batch`: per-row insert with
`ON CONFLICT (job_id) DO NOTHING`; a conflicting row is left untouched but the
statement succeeds, so the `inserted` counter is still bumped; a CHECK
violation is caught and skips only the counter. -/
def insertJobsBatch (now : Nat) (table : List DbRow)
    (recs : List InsertRecord) : Nat × List DbRow :=
  recs.foldl (fun acc rec =>
    match acc.2.find? (fun r => r.job_id == rec.job_id) with
    | some _ => (acc.1 + 1, acc.2)
    | none =>
      if rowChecks rec.job_title rec.job_description rec.application_link then
        (acc.1 + 1, acc.2 ++ [rowOfRecord now rec])
      else (acc.1, acc.2)) (0, table)

/-! ## Claim C3: upsert conflict semantics -/

/-- Concrete stored row for the C3 instances (inactive, stored at time 0). -/
def cRow : DbRow :=
  { job_id := "abcd1234efgh5678"
    job_title := "Data Engineer"
    job_description := wDesc
    application_link := "https://example.com/jobs/1"
    is_valid := false }

/-- Concrete conflicting record (same `job_id`, new title) for C3. -/
def cRec : InsertRecord :=
  { job_id := "abcd1234efgh5678"
    job_title := "Senior Data Engineer"
    job_description := wDesc
    application_link := "https://example.com/jobs/1" }

set_option maxRecDepth 100000 in
/-- C3 counterexample.  The claim as stated is false: on a `job_id` conflict
the batch path (`insert_jobs_batch`, `ON CONFLICT DO NOTHING`) leaves the
existing row completely unchanged — title and updated timestamp included —
and the single-row path (`insert_job`), while it does update
title/company/description/compensation/updated-at without erroring, never
touches the active flag (`is_valid` stays `false`). -/
theorem upsert_conflict_counterexample :
    (insertJobsBatch 5 [cRow] [cRec]).2 = [cRow] ∧
    cRow.job_title ≠ cRec.job_title ∧
    cRow.updated_at ≠ 5 ∧
    (insertJob 5 [cRow] cRec).1 = true ∧
    ((insertJob 5 [cRow] cRec).2.map DbRow.is_valid = [false]) := by
  refine ⟨by decide, ?_, ?_, by decide, by decide⟩
  · intro h
    exact absurd (congrArg String.length h) (by decide)
  · decide

/-- C3 amended.  Single-record path: a conflict on the durable identifier
updates the mutable columns title, company, description, compensation and the
updated timestamp — but not the active flag — and returns success rather than
erroring.  Batch path: a conflict leaves the existing row entirely unchanged
(`DO NOTHING`), also without erroring. -/
theorem upsert_conflict_semantics
    (now : Nat) (table : List DbRow) (rec : InsertRecord) (r0 : DbRow)
    (hfind : table.find? (fun r => r.job_id == rec.job_id) = some r0)
    (hchk : rowChecks rec.job_title rec.job_description r0.application_link
      = true) :
    (insertJob now table rec).1 = true ∧
    (insertJob now table rec).2 =
      table.map (fun r =>
        if r.job_id == rec.job_id then upsertRow now rec r else r) ∧
    (∀ r : DbRow, upsertRow now rec r =
      { r with job_title := rec.job_title
               company_name := rec.company_name
               job_description := rec.job_description
               salary_range := rec.salary_range
               updated_at := now }) ∧
    insertJobsBatch now table [rec] = (1, table) := by
  refine ⟨?_, ?_, fun r => rfl, ?_⟩
  · unfold insertJob
    rw [hfind]
    show (if rowChecks rec.job_title rec.job_description r0.application_link then
        (true, table.map (fun r =>
          if r.job_id == rec.job_id then upsertRow now rec r else r))
      else (false, table)).1 = true
    rw [if_pos hchk]
  · unfold insertJob
    rw [hfind]
    show (if rowChecks rec.job_title rec.job_description r0.application_link then
        (true, table.map (fun r =>
          if r.job_id == rec.job_id then upsertRow now rec r else r))
      else (false, table)).2 = _
    rw [if_pos hchk]
  · unfold insertJobsBatch
    show (match table.find? (fun r => r.job_id == rec.job_id) with
      | some _ => (0 + 1, table)
      | none =>
        if rowChecks rec.job_title rec.job_description rec.application_link
        then (0 + 1, table ++ [rowOfRecord now rec])
        else (0, table)) = (1, table)
    rw [hfind]

set_option maxRecDepth 100000 in
/-- Witness for the amended C3 at the concrete row and record. -/
theorem upsert_conflict_semantics_witness :
    ([cRow].find? (fun r => r.job_id == cRec.job_id) = some cRow) ∧
    (insertJob 5 [cRow] cRec).1 = true ∧
    insertJobsBatch 5 [cRow] [cRec] = (1, [cRow]) := by
  have h := upsert_conflict_semantics 5 [cRow] cRec cRow (by rfl) (by rfl)
  exact ⟨by rfl, h.1, h.2.2.2⟩

/-! ## Weighted embedding-text composition
(`embedding_service.py::_prepare_text`, `embedder.py::_prepare_weighted_text`) -/

/-- The dict fields `_prepare_text` reads (with the `dict.get` defaults). -/
structure EmbedJob where
  job_title : String := ""
  skills_required : List String := []
  job_description : String := ""
  industry : String := ""
  company_name : String := ""
deriving DecidableEq

/-- `sep.join(l)` (kernel-reducible join). -/
def joinWith (sep : String) : List String → String
  | [] => ""
  | [x] => x
  | x :: y :: rest => x ++ sep ++ joinWith sep (y :: rest)

/-- The `parts` list built by `VoyageEmbeddingService._prepare_text`: title
three times, the comma-joined skills twice, the first 3000 characters of the
description, then industry and company once each; empty fields are skipped.
(The `str(skills)` branch for non-list skills is not modelled: the pipeline
always passes a list.) -/
def prepareParts (job : EmbedJob) : List String :=
  (if job.job_title ≠ "" then [job.job_title, job.job_title, job.job_title]
   else []) ++
  (if job.skills_required ≠ [] then
     [joinWith ", " job.skills_required, joinWith ", " job.skills_required]
   else []) ++
  (if job.job_description ≠ "" then [pySlice job.job_description 3000]
   else []) ++
  (if job.industry ≠ "" then [job.industry] else []) ++
  (if job.company_name ≠ "" then [job.company_name] else [])

/-- `VoyageEmbeddingService._prepare_text`: newline-join the parts, truncate
to the 30000-character budget. -/
def prepare_text (job : EmbedJob) : String :=
  pySlice (joinWith "\n" (prepareParts job)) 30000

/-- The `parts` list built by `GeminiBatcher._prepare_weighted_text`: like
`prepareParts` but with an extra half-length skills part ("2.5x") and a
2000-character description prefix. -/
def prepareWeightedParts (job : EmbedJob) : List String :=
  (if job.job_title ≠ "" then [job.job_title, job.job_title, job.job_title]
   else []) ++
  (if job.skills_required ≠ [] then
     [joinWith ", " job.skills_required, joinWith ", " job.skills_required,
      pySlice (joinWith ", " job.skills_required)
        ((joinWith ", " job.skills_required).length / 2)]
   else []) ++
  (if job.job_description ≠ "" then [pySlice job.job_description 2000]
   else []) ++
  (if job.industry ≠ "" then [job.industry] else []) ++
  (if job.company_name ≠ "" then [job.company_name] else [])

/-- `GeminiBatcher._prepare_weighted_text`: newline-join, truncate to 8000. -/
def prepare_weighted_text (job : EmbedJob) : String :=
  pySlice (joinWith "\n" (prepareWeightedParts job)) 8000

/-- Number of positions at which `pat` occurs as a substring (occurrences may
overlap; for the inputs below none do). -/
def countOccurrences : List Char → List Char → Nat
  | [], _ => 0
  | c :: rest, pat =>
    (if listStartsWith (c :: rest) pat then 1 else 0) + countOccurrences rest pat

/-- Substring-occurrence count on strings. -/
def countOcc (s pat : String) : Nat := countOccurrences s.data pat.data

/-! ## Claim C4: weighted composition ordering -/

/-- All-fields-non-empty job on which the substring-count claim fails: the
company string also occurs inside the description. -/
def cJob4 : EmbedJob :=
  { job_title := "xy"
    skills_required := ["s"]
    job_description := "bbbb"
    industry := "i"
    company_name := "b" }

/-- C4 counterexample.  For `cJob4` (every field non-empty) the composed
embedding text contains the title substring 3 times but the company substring
5 times (the description repeats the company string), so the title does NOT
appear strictly more often than the company — under either composition
routine.  The strict count ordering `description > industry > company` also
fails: those three fields are appended once each. -/
theorem weighted_composition_counterexample :
    ¬ (countOcc (prepare_text cJob4) cJob4.job_title >
       countOcc (prepare_text cJob4) cJob4.company_name) ∧
    countOcc (prepare_text cJob4) cJob4.job_title = 3 ∧
    countOcc (prepare_text cJob4) cJob4.company_name = 5 ∧
    ¬ (countOcc (prepare_weighted_text cJob4) cJob4.job_title >
       countOcc (prepare_weighted_text cJob4) cJob4.company_name) := by
  decide

/-- C4 amended.  With every field non-empty, `_prepare_text` appends the title
three times, the joined skills twice, and the truncated description, industry
and company once each — so the title is appended strictly more often than the
company, and the repetition counts are ordered
`title (3) ≥ skills (2) ≥ description (1) ≥ industry (1) ≥ company (1)`
(the tail inequalities are equalities, not strict).  The character budget is
applied as a final prefix truncation, so it can only drop occurrences from
the end of the text.  Counted as substrings, the title outnumbers the company
only under the extra assumption that the company string does not coincide
with any other part. -/
theorem weighted_composition_ordering (job : EmbedJob)
    (ht : job.job_title ≠ "") (hs : job.skills_required ≠ [])
    (hd : job.job_description ≠ "") (hi : job.industry ≠ "")
    (hc : job.company_name ≠ "") :
    prepareParts job =
      [job.job_title, job.job_title, job.job_title,
       joinWith ", " job.skills_required, joinWith ", " job.skills_required,
       pySlice job.job_description 3000, job.industry, job.company_name] ∧
    prepare_text job = pySlice (joinWith "\n" (prepareParts job)) 30000 ∧
    (job.company_name ≠ job.job_title →
     job.company_name ≠ joinWith ", " job.skills_required →
     job.company_name ≠ pySlice job.job_description 3000 →
     job.company_name ≠ job.industry →
     (prepareParts job).count job.company_name = 1 ∧
     (prepareParts job).count job.job_title >
       (prepareParts job).count job.company_name) := by
  have hparts : prepareParts job =
      [job.job_title, job.job_title, job.job_title,
       joinWith ", " job.skills_required, joinWith ", " job.skills_required,
       pySlice job.job_description 3000, job.industry, job.company_name] := by
    unfold prepareParts
    rw [if_pos ht, if_pos hs, if_pos hd, if_pos hi, if_pos hc]
    rfl
  refine ⟨hparts, rfl, ?_⟩
  intro h1 h2 h3 h4
  have n1 : ¬(job.job_title = job.company_name) := fun h => h1 h.symm
  have n2 : ¬(joinWith ", " job.skills_required = job.company_name) :=
    fun h => h2 h.symm
  have n3 : ¬(pySlice job.job_description 3000 = job.company_name) :=
    fun h => h3 h.symm
  have n4 : ¬(job.industry = job.company_name) := fun h => h4 h.symm
  have hcc : (prepareParts job).count job.company_name = 1 := by
    rw [hparts]
    simp [List.count_cons, n1, n2, n3, n4]
  refine ⟨hcc, ?_⟩
  have hct : 3 ≤ (prepareParts job).count job.job_title := by
    rw [hparts]
    simp only [List.count_cons, List.count_nil]
    split <;> split <;> split <;> split <;> split <;> simp_all
  omega

/-- Witness for the amended C4 at a fully populated concrete job. -/
theorem weighted_composition_ordering_witness :
    prepareParts
        { job_title := "Senior Engineer", skills_required := ["python", "sql"]
          job_description := "Design and maintain services", industry := "tech"
          company_name := "acme" } =
      ["Senior Engineer", "Senior Engineer", "Senior Engineer",
       "python, sql", "python, sql", "Design and maintain services",
       "tech", "acme"] ∧
    (prepareParts
        { job_title := "Senior Engineer", skills_required := ["python", "sql"]
          job_description := "Design and maintain services", industry := "tech"
          company_name := "acme" }).count "Senior Engineer" >
      (prepareParts
        { job_title := "Senior Engineer", skills_required := ["python", "sql"]
          job_description := "Design and maintain services", industry := "tech"
          company_name := "acme" }).count "acme" := by
  have h := weighted_composition_ordering
    { job_title := "Senior Engineer", skills_required := ["python", "sql"]
      job_description := "Design and maintain services", industry := "tech"
      company_name := "acme" }
    (by decide) (by decide) (by decide) (by decide) (by decide)
  exact ⟨by simpa using h.1, (h.2.2 (by decide) (by decide) (by decide) (by decide)).2⟩

/-! ## Embedding sub-batching (`embedding_service.py::embed_batch`)

The provider (`voyageai.Client.embed` / Gemini `embed_content`) is modelled as
a per-text function: one batched call returns one vector per submitted text,
in order.  `embed_batch` chunks the text list by the configured maximum batch
size and issues one provider call per chunk; both `embedding_service.py` and
`embedder.py` use the identical `range(0, len(texts), batch_size)` loop. -/

/-- The constructor clamp `min(max_batch_size, MAX_BATCH_SIZE)` with
`MAX_BATCH_SIZE = 128`. -/
def voyageMaxBatchSize (requested : Nat) : Nat := min requested 128

/-- `_embed_batch_request`: one provider call on one chunk. -/
def embedBatchRequest (provider : String → List ℚ) (texts : List String) :
    List (List ℚ) :=
  texts.map provider

/-- `embed_batch`: chunk, one provider call per chunk, concatenate.  Returns
the embeddings and the number of provider calls issued. -/
def embedBatch (provider : String → List ℚ) (maxBatchSize : Nat)
    (texts : List String) : List (List ℚ) × Nat :=
  (((chunksOf maxBatchSize texts).map (embedBatchRequest provider)).flatten,
   (chunksOf maxBatchSize texts).length)

theorem chunksOf_eq_cons (k : Nat) (l : List α) (h : l ≠ []) :
    chunksOf k l = l.take (k.max 1) :: chunksOf k (l.drop (k.max 1)) := by
  cases l with
  | nil => exact absurd rfl h
  | cons x xs => rw [chunksOf]

theorem chunksOf_flatten (k : Nat) : ∀ (l : List α), (chunksOf k l).flatten = l
  | [] => by rw [chunksOf]; rfl
  | x :: xs => by
    rw [chunksOf]
    show ((x :: xs).take (k.max 1)) ++
      (chunksOf k ((x :: xs).drop (k.max 1))).flatten = x :: xs
    rw [chunksOf_flatten k ((x :: xs).drop (k.max 1)), List.take_append_drop]
termination_by l => l.length
decreasing_by
  have hk : 1 ≤ k.max 1 := Nat.le_max_right k 1
  simp only [List.length_drop, List.length_cons]
  omega

theorem chunksOf_length_le (k : Nat) : ∀ (l : List α), ∀ c ∈ chunksOf k l,
    c.length ≤ k.max 1
  | [] => by rw [chunksOf]; intro c hc; simp at hc
  | x :: xs => by
    rw [chunksOf]
    intro c hc
    rcases List.mem_cons.mp hc with rfl | hc
    · simpa using List.length_take_le (k.max 1) (x :: xs)
    · exact chunksOf_length_le k ((x :: xs).drop (k.max 1)) c hc
termination_by l => l.length
decreasing_by
  have hk : 1 ≤ k.max 1 := Nat.le_max_right k 1
  simp only [List.length_drop, List.length_cons]
  omega

/-! ## Claim C7: embedding sub-batching -/

/-- C7.  `embed_batch` partitions its input into consecutive chunks of at most
the configured maximum batch size, issues one provider call per chunk, and
concatenates the per-chunk results in input order; in particular a 130-text
input with maximum batch size 50 (`min(50, 128)`) is split 50/50/30 with
exactly 3 provider calls. -/
theorem embedding_subbatching (provider : String → List ℚ) :
    (∀ (bs : Nat) (texts : List String), 1 ≤ bs →
      ((chunksOf bs texts).flatten = texts ∧
       (∀ c ∈ chunksOf bs texts, c.length ≤ bs) ∧
       (embedBatch provider bs texts).1 = texts.map provider)) ∧
    (∀ texts : List String, texts.length = 130 →
      ((chunksOf (voyageMaxBatchSize 50) texts).map List.length = [50, 50, 30] ∧
       (embedBatch provider (voyageMaxBatchSize 50) texts).2 = 3 ∧
       (embedBatch provider (voyageMaxBatchSize 50) texts).1
         = texts.map provider)) := by
  have horder : ∀ (bs : Nat) (texts : List String),
      (embedBatch provider bs texts).1 = texts.map provider := by
    intro bs texts
    show (((chunksOf bs texts).map (embedBatchRequest provider)).flatten) = _
    rw [show (chunksOf bs texts).map (embedBatchRequest provider)
        = (chunksOf bs texts).map (List.map provider) from rfl]
    rw [← List.map_flatten, chunksOf_flatten]
  constructor
  · intro bs texts hbs
    refine ⟨chunksOf_flatten bs texts, ?_, horder bs texts⟩
    intro c hc
    have h1 := chunksOf_length_le bs texts c hc
    have h2 : bs.max 1 = bs := Nat.max_eq_left hbs
    omega
  · intro texts h130
    have hmb : voyageMaxBatchSize 50 = 50 := rfl
    have hne1 : texts ≠ [] := by
      intro he
      rw [he] at h130
      simp at h130
    have hne2 : texts.drop 50 ≠ [] := by
      intro he
      have := congrArg List.length he
      simp [h130] at this
    have hne3 : (texts.drop 50).drop 50 ≠ [] := by
      intro he
      have := congrArg List.length he
      simp [h130] at this
    have hnil : ((texts.drop 50).drop 50).drop 50 = [] := by
      apply List.eq_nil_of_length_eq_zero
      simp [h130]
    have hmax : Nat.max 50 1 = 50 := rfl
    have hch : chunksOf (voyageMaxBatchSize 50) texts =
        [texts.take 50, (texts.drop 50).take 50,
         ((texts.drop 50).drop 50).take 50] := by
      rw [hmb, chunksOf_eq_cons 50 texts hne1, hmax,
          chunksOf_eq_cons 50 (texts.drop 50) hne2, hmax,
          chunksOf_eq_cons 50 ((texts.drop 50).drop 50) hne3, hmax, hnil,
          chunksOf]
    refine ⟨?_, ?_, horder _ texts⟩
    · rw [hch]
      simp [List.length_take, h130]
    · show (chunksOf (voyageMaxBatchSize 50) texts).length = 3
      rw [hch]
      rfl

/-- Witness for C7 on 130 concrete texts. -/
theorem embedding_subbatching_witness :
    (List.replicate 130 "text").length = 130 ∧
    (chunksOf (voyageMaxBatchSize 50) (List.replicate 130 "text")).map
      List.length = [50, 50, 30] ∧
    (embedBatch (fun _ => [(1 : ℚ)]) (voyageMaxBatchSize 50)
      (List.replicate 130 "text")).2 = 3 := by
  have h := (embedding_subbatching (fun _ => [(1 : ℚ)])).2
    (List.replicate 130 "text") (by simp)
  exact ⟨by simp, h.1, h.2.1⟩

/-! ## HTML-to-text conversion (`spiders/hiring_cafe.py::_html_to_text`)

The five regex substitutions and `html.unescape` are modelled as recursive
character-list scanners.  `html.unescape` is a standard-library call; it is
modelled for the common named entities (`amp`, `lt`, `gt`, `quot`) and
numeric references, with Python's legacy no-semicolon decoding for the named
forms — the behaviour the theorems below rely on is shared with the full
implementation. -/

/-- Match `<br\s*/?>` (case-insensitive) at the head; return the rest. -/
def matchBr (l : List Char) : Option (List Char) :=
  match l with
  | c0 :: c1 :: c2 :: rest =>
    if c0 = '<' ∧ c1.toLower = 'b' ∧ c2.toLower = 'r' then
      match rest.dropWhile isPySpace with
      | '/' :: '>' :: r => some r
      | '>' :: r => some r
      | _ => none
    else none
  | _ => none

theorem matchBr_length (l r : List Char) (h : matchBr l = some r) :
    r.length < l.length := by
  unfold matchBr at h
  split at h
  case _ c0 c1 c2 rest =>
    split at h
    · have hdw : (rest.dropWhile isPySpace).length ≤ rest.length :=
        List.Sublist.length_le (List.dropWhile_sublist _)
      split at h
      all_goals first
        | (rename_i heq
           rw [Option.some_inj] at h
           subst h
           rw [heq] at hdw
           simp only [List.length_cons] at hdw ⊢
           omega)
        | exact absurd h (by simp)
    · exact absurd h (by simp)
  case _ => exact absurd h (by simp)

theorem matchBr_subset (l r : List Char) (h : matchBr l = some r) :
    ∀ c ∈ r, c ∈ l := by
  unfold matchBr at h
  split at h
  case _ c0 c1 c2 rest =>
    split at h
    · split at h
      all_goals first
        | (rename_i heq
           rw [Option.some_inj] at h
           subst h
           intro c hc
           have hmem : c ∈ rest.dropWhile isPySpace := by
             rw [heq]
             simp [hc]
           have := (List.dropWhile_sublist isPySpace).subset hmem
           simp [this])
        | exact absurd h (by simp)
    · exact absurd h (by simp)
  case _ => exact absurd h (by simp)

/-- One scanning pass of `_BR_TAG_RE.sub("\n", text)`, fuelled (the wrapper
passes the input length, which the per-step consumption makes sufficient). -/
def subBrF : Nat → List Char → List Char
  | _, [] => []
  | 0, l => l
  | fuel + 1, c :: rest =>
    match matchBr (c :: rest) with
    | some r => '\n' :: subBrF fuel r
    | none => c :: subBrF fuel rest

/-- `_BR_TAG_RE.sub("\n", text)`: replace every `<br>` variant by a newline. -/
def subBr (l : List Char) : List Char := subBrF l.length l

/-- Consume one lowercase tag name then `>`; return the rest. -/
def stripTagName : List Char → List Char → Option (List Char)
  | [], l =>
    match l with
    | '>' :: r => some r
    | _ => none
  | n :: ns, l =>
    match l with
    | c :: cs => if c.toLower = n then stripTagName ns cs else none
    | [] => none

/-- Match `</(p|div|h[1-6]|li|tr)>` (case-insensitive) at the head. -/
def matchBlock (l : List Char) : Option (List Char) :=
  match l with
  | '<' :: '/' :: rest =>
    stripTagName ['p'] rest <|> stripTagName ['d', 'i', 'v'] rest <|>
    stripTagName ['h', '1'] rest <|> stripTagName ['h', '2'] rest <|>
    stripTagName ['h', '3'] rest <|> stripTagName ['h', '4'] rest <|>
    stripTagName ['h', '5'] rest <|> stripTagName ['h', '6'] rest <|>
    stripTagName ['l', 'i'] rest <|> stripTagName ['t', 'r'] rest
  | _ => none

/-- One scanning pass of `_BLOCK_TAG_RE.sub("\n", text)`, fuelled. -/
def subBlockF : Nat → List Char → List Char
  | _, [] => []
  | 0, l => l
  | fuel + 1, c :: rest =>
    match matchBlock (c :: rest) with
    | some r => '\n' :: subBlockF fuel r
    | none => c :: subBlockF fuel rest

/-- `_BLOCK_TAG_RE.sub("\n", text)`: closing block tags become newlines. -/
def subBlock (l : List Char) : List Char := subBlockF l.length l

/-- Match `<[^>]+>` at the head (at least one non-`>` character between the
brackets). -/
def matchTag (l : List Char) : Option (List Char) :=
  match l with
  | '<' :: rest =>
    if (rest.takeWhile (fun c => c ≠ '>')).isEmpty then none
    else
      match rest.dropWhile (fun c => c ≠ '>') with
      | '>' :: r => some r
      | _ => none
  | _ => none

/-- One scanning pass of `_ALL_TAGS_RE.sub(" ", text)`, fuelled. -/
def subTagsF : Nat → List Char → List Char
  | _, [] => []
  | 0, l => l
  | fuel + 1, c :: rest =>
    match matchTag (c :: rest) with
    | some r => ' ' :: subTagsF fuel r
    | none => c :: subTagsF fuel rest

/-- `_ALL_TAGS_RE.sub(" ", text)`: remaining tags become single spaces. -/
def subTags (l : List Char) : List Char := subTagsF l.length l

/-- The named entities the `html.unescape` model decodes. -/
def entityTable : List (List Char × Char) :=
  [(['a', 'm', 'p'], '&'), (['l', 't'], '<'), (['g', 't'], '>'),
   (['q', 'u', 'o', 't'], '"')]

/-- Try each named entity at the head: on a match, consume the name and an
optional trailing semicolon (Python decodes the legacy no-semicolon forms
too). -/
def matchNamed : List (List Char × Char) → List Char →
    Option (Char × List Char)
  | [], _ => none
  | (name, ch) :: table, l =>
    if listStartsWith l name then
      match l.drop name.length with
      | ';' :: r => some (ch, r)
      | after => some (ch, after)
    else matchNamed table l

/-- Hexadecimal digit test for `&#x...;` references. -/
def isHexDigitCh (c : Char) : Bool :=
  c.isDigit || ('a' ≤ c && c ≤ 'f') || ('A' ≤ c && c ≤ 'F')

/-- Hexadecimal digit value. -/
def hexVal (c : Char) : Nat :=
  if c.isDigit then c.toNat - 48
  else if 'a' ≤ c then c.toNat - 87
  else c.toNat - 55

/-- Parse `#[0-9]+;?` or `#[xX][0-9a-fA-F]+;?` at the head. -/
def parseNumEntity (l : List Char) : Option (Char × List Char) :=
  match l with
  | '#' :: t =>
    match t with
    | c :: t2 =>
      if c = 'x' ∨ c = 'X' then
        if (t2.takeWhile isHexDigitCh).isEmpty then none
        else
          some (Char.ofNat ((t2.takeWhile isHexDigitCh).foldl
                  (fun a d => a * 16 + hexVal d) 0),
                match t2.dropWhile isHexDigitCh with
                | ';' :: r => r
                | after => after)
      else
        if (t.takeWhile Char.isDigit).isEmpty then none
        else
          some (Char.ofNat ((t.takeWhile Char.isDigit).foldl
                  (fun a d => a * 10 + (d.toNat - 48)) 0),
                match t.dropWhile Char.isDigit with
                | ';' :: r => r
                | after => after)
    | [] => none
  | _ => none

/-- Parse one character reference immediately after an ampersand. -/
def parseEntity (l : List Char) : Option (Char × List Char) :=
  match parseNumEntity l with
  | some res => some res
  | none => matchNamed entityTable l

/-- One scanning pass of the `html.unescape` model, fuelled: a parseable
reference after an `&` is decoded once, anything else is copied verbatim. -/
def unescapeF : Nat → List Char → List Char
  | _, [] => []
  | 0, l => l
  | fuel + 1, c :: rest =>
    if c = '&' then
      match parseEntity rest with
      | some (d, r) => d :: unescapeF fuel r
      | none => c :: unescapeF fuel rest
    else c :: unescapeF fuel rest

/-- Model of `html.unescape` (single pass, as in Python). -/
def unescapeL (l : List Char) : List Char := unescapeF l.length l

/-- The character class of `_MULTI_SPACE_RE` (`[ \t]+`). -/
def isSpaceTab (c : Char) : Bool := c = ' ' || c = '\t'

/-- `_MULTI_SPACE_RE.sub(" ", text)`: collapse space/tab runs, fuelled. -/
def subMultiSpaceF : Nat → List Char → List Char
  | _, [] => []
  | 0, l => l
  | fuel + 1, c :: rest =>
    if isSpaceTab c then ' ' :: subMultiSpaceF fuel (rest.dropWhile isSpaceTab)
    else c :: subMultiSpaceF fuel rest

/-- `_MULTI_SPACE_RE.sub(" ", text)`. -/
def subMultiSpace (l : List Char) : List Char := subMultiSpaceF l.length l

/-- `_MULTI_NEWLINE_RE.sub("\n\n", text)`: runs of three or more newlines
become two, fuelled. -/
def subMultiNewlineF : Nat → List Char → List Char
  | _, [] => []
  | 0, l => l
  | fuel + 1, c :: rest =>
    if c = '\n' ∧ 2 ≤ (rest.takeWhile (fun d => d = '\n')).length then
      '\n' :: '\n' :: subMultiNewlineF fuel (rest.dropWhile (fun d => d = '\n'))
    else c :: subMultiNewlineF fuel rest

/-- `_MULTI_NEWLINE_RE.sub("\n\n", text)`. -/
def subMultiNewline (l : List Char) : List Char := subMultiNewlineF l.length l

/-- `_html_to_text`: the falsy-input guard, the three tag substitutions,
entity decoding, whitespace collapsing and the final strip. -/
def htmlToText (s : String) : String :=
  if s = "" then ""
  else ⟨pyStrip (subMultiNewline (subMultiSpace (unescapeL
         (subTags (subBlock (subBr s.data))))))⟩

/-! ### Ampersand-preservation lemmas

`_html_to_text` only inserts newlines and spaces, and (on ampersand-free
input) `unescape` copies characters verbatim, so an input without `&` yields
an output without `&` — hence without entity-shaped substrings. -/

theorem orElse_eq_some {α : Type} (x y : Option α) (r : α)
    (h : (x <|> y) = some r) : x = some r ∨ y = some r := by
  cases x with
  | none => right; simpa using h
  | some a => left; simpa using h

theorem stripTagName_subset : ∀ (name l r : List Char),
    stripTagName name l = some r → ∀ c ∈ r, c ∈ l
  | [], l, r, h => by
    unfold stripTagName at h
    split at h
    · rw [Option.some_inj] at h
      subst h
      intro c hc
      simp [hc]
    · exact absurd h (by simp)
  | n :: ns, l, r, h => by
    unfold stripTagName at h
    split at h
    case _ c cs =>
      split at h
      · intro d hd
        have := stripTagName_subset ns cs r h d hd
        simp [this]
      · exact absurd h (by simp)
    case _ => exact absurd h (by simp)

theorem matchBlock_subset (l r : List Char) (h : matchBlock l = some r) :
    ∀ c ∈ r, c ∈ l := by
  unfold matchBlock at h
  split at h
  case _ rest =>
    have hsub : ∀ c ∈ r, c ∈ rest := by
      rcases orElse_eq_some _ _ _ h with h1 | h
      · exact stripTagName_subset _ _ _ h1
      rcases orElse_eq_some _ _ _ h with h1 | h
      · exact stripTagName_subset _ _ _ h1
      rcases orElse_eq_some _ _ _ h with h1 | h
      · exact stripTagName_subset _ _ _ h1
      rcases orElse_eq_some _ _ _ h with h1 | h
      · exact stripTagName_subset _ _ _ h1
      rcases orElse_eq_some _ _ _ h with h1 | h
      · exact stripTagName_subset _ _ _ h1
      rcases orElse_eq_some _ _ _ h with h1 | h
      · exact stripTagName_subset _ _ _ h1
      rcases orElse_eq_some _ _ _ h with h1 | h
      · exact stripTagName_subset _ _ _ h1
      rcases orElse_eq_some _ _ _ h with h1 | h
      · exact stripTagName_subset _ _ _ h1
      rcases orElse_eq_some _ _ _ h with h1 | h
      · exact stripTagName_subset _ _ _ h1
      · exact stripTagName_subset _ _ _ h
    intro c hc
    have := hsub c hc
    simp [this]
  case _ => exact absurd h (by simp)

theorem matchTag_subset (l r : List Char) (h : matchTag l = some r) :
    ∀ c ∈ r, c ∈ l := by
  unfold matchTag at h
  split at h
  case _ rest =>
    split at h
    · exact absurd h (by simp)
    · split at h
      · rename_i heq
        rw [Option.some_inj] at h
        subst h
        intro c hc
        have hmem : c ∈ rest.dropWhile (fun c => c ≠ '>') := by
          rw [heq]
          simp [hc]
        have := (List.dropWhile_sublist _).subset hmem
        simp [this]
      · exact absurd h (by simp)
  case _ => exact absurd h (by simp)

theorem subBrF_noAmp : ∀ (fuel : Nat) (l : List Char),
    (∀ c ∈ l, c ≠ '&') → ∀ c ∈ subBrF fuel l, c ≠ '&'
  | _, [], _ => by simp [subBrF]
  | 0, c :: rest, h => by simpa [subBrF] using h
  | fuel + 1, c :: rest, h => by
    simp only [subBrF]
    cases hm : matchBr (c :: rest) with
    | some r =>
      intro x hx
      rcases List.mem_cons.mp hx with rfl | hx
      · decide
      · exact subBrF_noAmp fuel r
          (fun d hd => h d (matchBr_subset _ _ hm d hd)) x hx
    | none =>
      intro x hx
      rcases List.mem_cons.mp hx with rfl | hx
      · exact h x (by simp)
      · exact subBrF_noAmp fuel rest (fun d hd => h d (by simp [hd])) x hx

theorem subBlockF_noAmp : ∀ (fuel : Nat) (l : List Char),
    (∀ c ∈ l, c ≠ '&') → ∀ c ∈ subBlockF fuel l, c ≠ '&'
  | _, [], _ => by simp [subBlockF]
  | 0, c :: rest, h => by simpa [subBlockF] using h
  | fuel + 1, c :: rest, h => by
    simp only [subBlockF]
    cases hm : matchBlock (c :: rest) with
    | some r =>
      intro x hx
      rcases List.mem_cons.mp hx with rfl | hx
      · decide
      · exact subBlockF_noAmp fuel r
          (fun d hd => h d (matchBlock_subset _ _ hm d hd)) x hx
    | none =>
      intro x hx
      rcases List.mem_cons.mp hx with rfl | hx
      · exact h x (by simp)
      · exact subBlockF_noAmp fuel rest (fun d hd => h d (by simp [hd])) x hx

theorem subTagsF_noAmp : ∀ (fuel : Nat) (l : List Char),
    (∀ c ∈ l, c ≠ '&') → ∀ c ∈ subTagsF fuel l, c ≠ '&'
  | _, [], _ => by simp [subTagsF]
  | 0, c :: rest, h => by simpa [subTagsF] using h
  | fuel + 1, c :: rest, h => by
    simp only [subTagsF]
    cases hm : matchTag (c :: rest) with
    | some r =>
      intro x hx
      rcases List.mem_cons.mp hx with rfl | hx
      · decide
      · exact subTagsF_noAmp fuel r
          (fun d hd => h d (matchTag_subset _ _ hm d hd)) x hx
    | none =>
      intro x hx
      rcases List.mem_cons.mp hx with rfl | hx
      · exact h x (by simp)
      · exact subTagsF_noAmp fuel rest (fun d hd => h d (by simp [hd])) x hx

theorem unescapeF_noAmp : ∀ (fuel : Nat) (l : List Char),
    (∀ c ∈ l, c ≠ '&') → ∀ c ∈ unescapeF fuel l, c ≠ '&'
  | _, [], _ => by simp [unescapeF]
  | 0, c :: rest, h => by simpa [unescapeF] using h
  | fuel + 1, c :: rest, h => by
    simp only [unescapeF]
    rw [if_neg (h c (by simp))]
    intro x hx
    rcases List.mem_cons.mp hx with rfl | hx
    · exact h x (by simp)
    · exact unescapeF_noAmp fuel rest (fun d hd => h d (by simp [hd])) x hx

theorem subMultiSpaceF_noAmp : ∀ (fuel : Nat) (l : List Char),
    (∀ c ∈ l, c ≠ '&') → ∀ c ∈ subMultiSpaceF fuel l, c ≠ '&'
  | _, [], _ => by simp [subMultiSpaceF]
  | 0, c :: rest, h => by simpa [subMultiSpaceF] using h
  | fuel + 1, c :: rest, h => by
    simp only [subMultiSpaceF]
    by_cases hsp : isSpaceTab c = true
    · rw [if_pos hsp]
      intro x hx
      rcases List.mem_cons.mp hx with rfl | hx
      · decide
      · refine subMultiSpaceF_noAmp fuel (rest.dropWhile isSpaceTab) ?_ x hx
        intro d hd
        exact h d (by simp [(List.dropWhile_sublist isSpaceTab).subset hd])
    · rw [if_neg hsp]
      intro x hx
      rcases List.mem_cons.mp hx with rfl | hx
      · exact h x (by simp)
      · exact subMultiSpaceF_noAmp fuel rest (fun d hd => h d (by simp [hd])) x hx

theorem subMultiNewlineF_noAmp : ∀ (fuel : Nat) (l : List Char),
    (∀ c ∈ l, c ≠ '&') → ∀ c ∈ subMultiNewlineF fuel l, c ≠ '&'
  | _, [], _ => by simp [subMultiNewlineF]
  | 0, c :: rest, h => by simpa [subMultiNewlineF] using h
  | fuel + 1, c :: rest, h => by
    simp only [subMultiNewlineF]
    by_cases hnl : c = '\n' ∧ 2 ≤ (rest.takeWhile (fun d => d = '\n')).length
    · rw [if_pos hnl]
      intro x hx
      rcases List.mem_cons.mp hx with rfl | hx
      · decide
      rcases List.mem_cons.mp hx with rfl | hx
      · decide
      · refine subMultiNewlineF_noAmp fuel
          (rest.dropWhile (fun d => d = '\n')) ?_ x hx
        intro d hd
        exact h d (by simp [(List.dropWhile_sublist _).subset hd])
    · rw [if_neg hnl]
      intro x hx
      rcases List.mem_cons.mp hx with rfl | hx
      · exact h x (by simp)
      · exact subMultiNewlineF_noAmp fuel rest
          (fun d hd => h d (by simp [hd])) x hx

theorem pyStrip_subset (l : List Char) : ∀ c ∈ pyStrip l, c ∈ l := by
  intro c hc
  unfold pyStrip at hc
  rw [List.mem_reverse] at hc
  have h1 := (List.dropWhile_sublist isPySpace).subset hc
  rw [List.mem_reverse] at h1
  exact (List.dropWhile_sublist isPySpace).subset h1

theorem countOcc_amp_zero : ∀ (l pat : List Char),
    (∀ c ∈ l, c ≠ '&') → countOccurrences l ('&' :: pat) = 0
  | [], _, _ => rfl
  | c :: rest, pat, h => by
    simp only [countOccurrences]
    have hc : (c == '&') = false := by
      simpa using h c (by simp)
    rw [show listStartsWith (c :: rest) ('&' :: pat) = false by
      simp [listStartsWith, hc]]
    simp only [if_neg Bool.false_ne_true, Nat.zero_add]
    exact countOcc_amp_zero rest pat (fun d hd => h d (by simp [hd]))

/-! ## Claim C8: HTML-to-text totality and entity decoding -/

/-- C8 counterexample.  `_html_to_text` never raises (every stage is total),
but its output can still contain an undecoded entity: the doubly-escaped
input `"&amp;amp;"` converts to `"&amp;"`, which itself still reads as an
HTML entity (decoding it again would give `"&"`), because `unescape` is
applied once, not to a fixed point. -/
theorem htmlToText_counterexample :
    htmlToText "&amp;amp;" = "&amp;" ∧
    0 < countOcc (htmlToText "&amp;amp;") "&amp;" ∧
    unescapeL "&amp;".data ≠ "&amp;".data := by
  refine ⟨by decide, by decide, by decide⟩

/-- C8 amended.  `_html_to_text` is total (every stage of the embedding is a
total function — the guard returns `""` on falsy input and each scanner
terminates on arbitrary malformed markup), and it never *introduces*
entities: an input containing no ampersand converts to an output containing
no ampersand, hence no entity-shaped substring at all.  Outputs can contain
entities only when the input was multiply-escaped, as in the
counterexample. -/
theorem htmlToText_no_amp (s : String) (h : ∀ c ∈ s.data, c ≠ '&') :
    (∀ c ∈ (htmlToText s).data, c ≠ '&') ∧
    countOcc (htmlToText s) "&amp;" = 0 := by
  have hout : ∀ c ∈ (htmlToText s).data, c ≠ '&' := by
    unfold htmlToText
    by_cases hs : s = ""
    · rw [if_pos hs]
      simp
    · rw [if_neg hs]
      have k1 : ∀ c ∈ subBr s.data, c ≠ '&' := subBrF_noAmp _ _ h
      have k2 : ∀ c ∈ subBlock (subBr s.data), c ≠ '&' := subBlockF_noAmp _ _ k1
      have k3 : ∀ c ∈ subTags (subBlock (subBr s.data)), c ≠ '&' :=
        subTagsF_noAmp _ _ k2
      have k4 : ∀ c ∈ unescapeL (subTags (subBlock (subBr s.data))), c ≠ '&' :=
        unescapeF_noAmp _ _ k3
      have k5 : ∀ c ∈ subMultiSpace (unescapeL (subTags (subBlock
          (subBr s.data)))), c ≠ '&' := subMultiSpaceF_noAmp _ _ k4
      have k6 : ∀ c ∈ subMultiNewline (subMultiSpace (unescapeL (subTags
          (subBlock (subBr s.data))))), c ≠ '&' := subMultiNewlineF_noAmp _ _ k5
      intro c hc
      exact k6 c (pyStrip_subset _ c hc)
  exact ⟨hout, countOcc_amp_zero _ _ hout⟩

/-- Witness for the amended C8 on a concrete tag-only, ampersand-free input. -/
theorem htmlToText_no_amp_witness :
    (∀ c ∈ ("<p>hello</p>" : String).data, c ≠ '&') ∧
    countOcc (htmlToText "<p>hello</p>") "&amp;" = 0 :=
  ⟨by decide, (htmlToText_no_amp "<p>hello</p>" (by decide)).2⟩

/-! ## Search pagination (`spiders/hiring_cafe.py::HiringCafeSpider.scrape`)

The paged search endpoint is modelled as a function from offset to the list
of result cards (the mock source of the scenario); the total-count endpoint
as a `Nat` (`_get_total_count` returns `0` when the endpoint is unavailable,
which is the Python falsy value the `if total and offset >= total` guard
ignores).  Detail fetches do not influence pagination and are omitted; the
loop returns the collected requisition ids and the number of search-page
requests issued. -/

/-- A search result card (`requisition_id` / `objectID` keys). -/
structure SearchCard where
  requisition_id : Option String := none
  objectID : Option String := none
deriving DecidableEq

/-- `_extract_requisition_id`: `card.get("requisition_id") or
card.get("objectID")`. -/
def extractRequisitionId (card : SearchCard) : Option String :=
  if truthy card.requisition_id then card.requisition_id else card.objectID

/-- The ids one page contributes: extracted, truthy, and not already known
(`if req_id and req_id not in known`). -/
def newIds (known : List String) (hits : List SearchCard) : List String :=
  hits.filterMap (fun card =>
    match extractRequisitionId card with
    | some rid => if rid ≠ "" ∧ rid ∉ known then some rid else none
    | none => none)

/-- The pagination loop of `scrape`: fuel is the number of pages the
`page_num < max_pages` ceiling still allows.  One iteration requests one
search page; an empty page stops discovery; otherwise the page's new ids are
collected, the offset advances by the page size, and a truthy total that has
been reached also stops discovery.  Returns `(all_req_ids, page requests)`. -/
def scrapeLoop (search : Nat → List SearchCard) (known : List String)
    (pageSize total : Nat) :
    Nat → Nat → List String → Nat → (List String × Nat)
  | 0, _, acc, reqs => (acc, reqs)
  | fuel + 1, offset, acc, reqs =>
    if (search offset).isEmpty then (acc, reqs + 1)
    else if total ≠ 0 ∧ total ≤ offset + pageSize then
      (acc ++ newIds known (search offset), reqs + 1)
    else
      scrapeLoop search known pageSize total fuel (offset + pageSize)
        (acc ++ newIds known (search offset)) (reqs + 1)

/-- `scrape`, discovery part: paginate from offset 0 with an empty id
accumulator. -/
def scrapeDiscover (search : Nat → List SearchCard) (known : List String)
    (pageSize maxPages total : Nat) : List String × Nat :=
  scrapeLoop search known pageSize total maxPages 0 [] 0

theorem length_filterMap_of_total {α β : Type} (f : α → Option β) :
    ∀ (l : List α), (∀ x ∈ l, ∃ y, f x = some y) →
      (l.filterMap f).length = l.length
  | [], _ => rfl
  | x :: xs, h => by
    obtain ⟨y, hy⟩ := h x (by simp)
    rw [List.filterMap_cons, hy]
    simp only [List.length_cons]
    rw [length_filterMap_of_total f xs (fun z hz => h z (by simp [hz]))]

theorem scrapeLoop_succ (search : Nat → List SearchCard) (known : List String)
    (pageSize total fuel offset : Nat) (acc : List String) (reqs : Nat) :
    scrapeLoop search known pageSize total (fuel + 1) offset acc reqs =
      if (search offset).isEmpty then (acc, reqs + 1)
      else if total ≠ 0 ∧ total ≤ offset + pageSize then
        (acc ++ newIds known (search offset), reqs + 1)
      else
        scrapeLoop search known pageSize total fuel (offset + pageSize)
          (acc ++ newIds known (search offset)) (reqs + 1) := rfl

/-! ## Claim C5: pagination termination and exact request count -/

/-- C5.  Discovery stops as soon as a search page comes back empty, without
needing the `max_pages` ceiling: against a mock source serving 20, 20 and
then 0 cards at page size 20 (total-count endpoint unavailable, i.e. total
`0`), the spider issues exactly 3 page requests and collects exactly 40
candidate identifiers — for every ceiling of at least 3 pages. -/
theorem pagination_termination
    (search : Nat → List SearchCard) (maxPages : Nat) (hmp : 3 ≤ maxPages)
    (h0 : (search 0).length = 20) (h20 : (search 20).length = 20)
    (h40 : search 40 = [])
    (hvalid : ∀ off ∈ ([0, 20] : List Nat), ∀ card ∈ search off,
      ∃ rid, extractRequisitionId card = some rid ∧ rid ≠ "") :
    (scrapeDiscover search [] 20 maxPages 0).2 = 3 ∧
    (scrapeDiscover search [] 20 maxPages 0).1.length = 40 := by
  obtain ⟨k, hk⟩ := Nat.exists_eq_add_of_le hmp
  subst hk
  have hlen0 : (newIds [] (search 0)).length = 20 := by
    unfold newIds
    rw [length_filterMap_of_total, h0]
    intro card hc
    obtain ⟨rid, hr, hne⟩ := hvalid 0 (by simp) card hc
    refine ⟨rid, ?_⟩
    rw [hr]
    show (if rid ≠ "" ∧ rid ∉ ([] : List String) then some rid else none)
      = some rid
    rw [if_pos ⟨hne, by simp⟩]
  have hlen20 : (newIds [] (search 20)).length = 20 := by
    unfold newIds
    rw [length_filterMap_of_total, h20]
    intro card hc
    obtain ⟨rid, hr, hne⟩ := hvalid 20 (by simp) card hc
    refine ⟨rid, ?_⟩
    rw [hr]
    show (if rid ≠ "" ∧ rid ∉ ([] : List String) then some rid else none)
      = some rid
    rw [if_pos ⟨hne, by simp⟩]
  have hne0 : ¬ ((search 0).isEmpty = true) := by
    cases hs : search 0 with
    | nil => rw [hs] at h0; simp at h0
    | cons a l => simp
  have hne20 : ¬ ((search 20).isEmpty = true) := by
    cases hs : search 20 with
    | nil => rw [hs] at h20; simp at h20
    | cons a l => simp
  have htot : ∀ m : Nat, ¬ ((0 : Nat) ≠ 0 ∧ (0 : Nat) ≤ m) := by
    rintro m ⟨hne, _⟩
    exact hne rfl
  unfold scrapeDiscover
  rw [show 3 + k = (2 + k) + 1 by omega, scrapeLoop_succ, if_neg hne0,
      if_neg (htot _)]
  simp only [Nat.zero_add, List.nil_append]
  rw [show 2 + k = (1 + k) + 1 by omega, scrapeLoop_succ, if_neg hne20,
      if_neg (htot _)]
  rw [show 20 + 20 = 40 by omega]
  rw [show 1 + k = k + 1 by omega, scrapeLoop_succ,
      if_pos (by rw [h40]; rfl)]
  refine ⟨rfl, ?_⟩
  simp [hlen0, hlen20]

/-- The card the C5 witness mock serves. -/
def cardW : SearchCard := { requisition_id := some "req-1" }

/-- The C5 witness mock source: two pages of 20 cards, then empty. -/
def mockSearch (offset : Nat) : List SearchCard :=
  if offset < 40 then List.replicate 20 cardW else []

/-- Witness for C5 against the concrete mock source with ceiling 500 (the
spider's default `max_pages`). -/
theorem pagination_termination_witness :
    (scrapeDiscover mockSearch [] 20 500 0).2 = 3 ∧
    (scrapeDiscover mockSearch [] 20 500 0).1.length = 40 := by
  apply pagination_termination
  · omega
  · simp [mockSearch]
  · simp [mockSearch]
  · simp [mockSearch]
  · intro off hoff card hc
    refine ⟨"req-1", ?_, by simp⟩
    have hcw : card = cardW := by
      simp only [List.mem_cons, List.mem_singleton, List.not_mem_nil,
        or_false] at hoff
      rcases hoff with rfl | rfl
      · simpa [mockSearch] using hc
      · simpa [mockSearch] using hc
    rw [hcw]
    rfl

/-! ## Hybrid search merging and caching (`hybrid_search.py`)

Raw result rows from the Store are modelled with the fields `_merge_results`
reads: `job_id` (`""` models a falsy/missing id, which the loops skip),
`similarity` for vector rows, `rank` for keyword rows (both defaulting to 0
via `dict.get`), and the posting age in days, which is what the
freshness step function depends on.  Scores are rationals.  Python's
insertion-ordered dict becomes an entry list with in-place update; Python's
stable `sorted(..., reverse=True)` becomes `List.insertionSort` with the
`≥`-on-combined-score relation, which is the same stable descending sort
(the `vector_rank` / `keyword_rank` bookkeeping fields, never read by the
ranking, are omitted). -/

/-- A raw search row as consumed by `_merge_results`. -/
structure SearchHit where
  job_id : String := ""
  similarity : ℚ := 0
  rankScore : ℚ := 0
  ageDays : Option Int := none
deriving DecidableEq

/-- A merged entry of the `all_jobs` dict. -/
structure MergedJob where
  job_id : String := ""
  vector_score : ℚ := 0
  keyword_score : ℚ := 0
  ageDays : Option Int := none
  freshness_score : ℚ := 0
  combined_score : ℚ := 0
deriving DecidableEq

/-- The configurable ranking weights (defaults 0.6 / 0.3 / 0.1). -/
structure SearchWeights where
  vector_similarity : ℚ := 6 / 10
  keyword_match : ℚ := 3 / 10
  freshness : ℚ := 1 / 10
deriving DecidableEq

/-- `_calculate_freshness_score` as a function of the posting age in days
(`none` models an unknown or unparseable posting date). -/
def calculateFreshnessScore : Option Int → ℚ
  | none => 1 / 2
  | some d =>
    if d ≤ 1 then 1
    else if d ≤ 7 then 9 / 10
    else if d ≤ 14 then 7 / 10
    else if d ≤ 30 then 1 / 2
    else 3 / 10

/-- `max((r.get('similarity', 0) for r in vector_results), default=1)`. -/
def maxSimilarity (vrs : List SearchHit) : ℚ :=
  match vrs.map SearchHit.similarity with
  | [] => 1
  | a :: rest => rest.foldl max a

/-- `max((r.get('rank', 0) for r in keyword_results), default=1)`. -/
def maxRankScore (krs : List SearchHit) : ℚ :=
  match krs.map SearchHit.rankScore with
  | [] => 1
  | a :: rest => rest.foldl max a

/-- Score normalization: divide by the source maximum when it is positive,
else 0. -/
def normScore (maxv sim : ℚ) : ℚ := if 0 < maxv then sim / maxv else 0

/-- The entry a vector row contributes. -/
def vecEntry (maxv : ℚ) (r : SearchHit) : MergedJob :=
  { job_id := r.job_id
    vector_score := normScore maxv r.similarity
    keyword_score := 0
    ageDays := r.ageDays }

/-- The entry a keyword-only row contributes. -/
def kwEntry (maxk : ℚ) (r : SearchHit) : MergedJob :=
  { job_id := r.job_id
    vector_score := 0
    keyword_score := normScore maxk r.rankScore
    ageDays := r.ageDays }

/-- `all_jobs[job_id] = entry` on an insertion-ordered dict: replace in place
or append. -/
def upsertEntry (e : MergedJob) : List MergedJob → List MergedJob
  | [] => [e]
  | e0 :: rest =>
    if e0.job_id = e.job_id then e :: rest else e0 :: upsertEntry e rest

/-- First `_merge_results` loop: vector rows with truthy ids populate the
dict. -/
def phase1 (maxv : ℚ) : List MergedJob → List SearchHit → List MergedJob
  | acc, [] => acc
  | acc, r :: rs =>
    if r.job_id = "" then phase1 maxv acc rs
    else phase1 maxv (upsertEntry (vecEntry maxv r) acc) rs

/-- Setting `keyword_score` on the existing entry of a given id. -/
def updKeyword (tid : String) (ks : ℚ) : List MergedJob → List MergedJob
  | [] => []
  | e :: rest =>
    if e.job_id = tid then { e with keyword_score := ks } :: rest
    else e :: updKeyword tid ks rest

/-- `job_id in all_jobs`. -/
def containsId (tid : String) (l : List MergedJob) : Bool :=
  l.any (fun e => e.job_id == tid)

/-- Second `_merge_results` loop: keyword rows update existing entries or
append keyword-only ones. -/
def phase2 (maxk : ℚ) : List MergedJob → List SearchHit → List MergedJob
  | acc, [] => acc
  | acc, r :: rs =>
    if r.job_id = "" then phase2 maxk acc rs
    else if containsId r.job_id acc then
      phase2 maxk (updKeyword r.job_id (normScore maxk r.rankScore) acc) rs
    else phase2 maxk (acc ++ [kwEntry maxk r]) rs

/-- The merged dict (insertion order), before scoring. -/
def mergeEntries (vrs krs : List SearchHit) : List MergedJob :=
  phase2 (maxRankScore krs) (phase1 (maxSimilarity vrs) [] vrs) krs

/-- The combined weighted score of an entry. -/
def combinedOf (w : SearchWeights) (e : MergedJob) : ℚ :=
  w.vector_similarity * e.vector_score + w.keyword_match * e.keyword_score +
    w.freshness * calculateFreshnessScore e.ageDays

/-- Third `_merge_results` loop: attach freshness and combined score. -/
def scoreEntry (w : SearchWeights) (e : MergedJob) : MergedJob :=
  { e with freshness_score := calculateFreshnessScore e.ageDays
           combined_score := combinedOf w e }

/-- The scored entries, still in dict insertion order. -/
def scoredEntries (w : SearchWeights) (vrs krs : List SearchHit) :
    List MergedJob :=
  (mergeEntries vrs krs).map (scoreEntry w)

/-- `sorted(all_jobs.values(), key=combined_score, reverse=True)`: stable
descending sort. -/
def sortedMerged (w : SearchWeights) (vrs krs : List SearchHit) :
    List MergedJob :=
  List.insertionSort (fun a b => b.combined_score ≤ a.combined_score)
    (scoredEntries w vrs krs)

/-- `_merge_results`: sort and truncate to `limit`. -/
def mergeResults (w : SearchWeights) (vrs krs : List SearchHit)
    (limit : Nat) : List MergedJob :=
  (sortedMerged w vrs krs).take limit

/-! ### The search cache (`HybridSearch.search`, `_get_cache_key`)

The query embedder and the Store's two search calls are function parameters;
wall-clock time is a `Nat` passed per call; `use_cache=True`.  Filters are a
key/value list; `str(sorted(filters.items()))` is modelled by a deterministic
rendering of the key-sorted list, which preserves exactly what the claim
needs: the key depends on the query and filters only, not on `limit`. -/

/-- One cache slot: the merged result list and when it was stored. -/
structure CacheEntry where
  results : List MergedJob
  cached_at : Nat
deriving DecidableEq

/-- `_get_cache_key`: query text plus the sorted filter items; no limit. -/
def cacheKey (query : String) (filters : List (String × String)) : String :=
  match filters with
  | [] => query ++ "|"
  | _ => query ++ "|" ++
      joinWith ","
        ((List.insertionSort (fun a b => a.1 ≤ b.1) filters).map
          (fun p => p.1 ++ "=" ++ p.2))

/-- Association-list lookup (`self.cache.get(cache_key)`). -/
def cacheLookup (key : String) (cache : List (String × CacheEntry)) :
    Option CacheEntry :=
  (cache.find? (fun p => p.1 == key)).map Prod.snd

/-- Association-list store (`self.cache[cache_key] = ...`). -/
def cachePut (key : String) (entry : CacheEntry) :
    List (String × CacheEntry) → List (String × CacheEntry)
  | [] => [(key, entry)]
  | (k, e) :: rest =>
    if k = key then (key, entry) :: rest else (k, e) :: cachePut key entry rest

/-- The uncached path of `search`: embed the query (a failed embedding
degrades to keyword-only), fetch `2*limit` candidates from each source, and
merge. -/
def freshSearch (embedQuery : String → Option (List ℚ))
    (vecSearch : List ℚ → Nat → List (String × String) → List SearchHit)
    (kwSearch : String → Nat → List SearchHit)
    (w : SearchWeights) (query : String) (limit : Nat)
    (filters : List (String × String)) : List MergedJob :=
  let vrs := match embedQuery query with
    | some emb => vecSearch emb (limit * 2) filters
    | none => []
  mergeResults w vrs (kwSearch query (limit * 2)) limit

/-- `HybridSearch.search` with `use_cache=True`: a fresh-enough cache entry
under the query+filters key is returned truncated to this call's `limit`;
otherwise the search is recomputed and cached.  Returns the results and the
updated cache. -/
def hybridSearch (embedQuery : String → Option (List ℚ))
    (vecSearch : List ℚ → Nat → List (String × String) → List SearchHit)
    (kwSearch : String → Nat → List SearchHit)
    (w : SearchWeights) (ttl : Nat) (st : List (String × CacheEntry))
    (query : String) (limit : Nat) (filters : List (String × String))
    (now : Nat) : List MergedJob × List (String × CacheEntry) :=
  match cacheLookup (cacheKey query filters) st with
  | some entry =>
    if now - entry.cached_at < ttl then (entry.results.take limit, st)
    else
      (freshSearch embedQuery vecSearch kwSearch w query limit filters,
       cachePut (cacheKey query filters)
         ⟨freshSearch embedQuery vecSearch kwSearch w query limit filters, now⟩
         st)
  | none =>
    (freshSearch embedQuery vecSearch kwSearch w query limit filters,
     cachePut (cacheKey query filters)
       ⟨freshSearch embedQuery vecSearch kwSearch w query limit filters, now⟩
       st)

theorem cacheLookup_cachePut (key : String) (entry : CacheEntry) :
    ∀ cache, cacheLookup key (cachePut key entry cache) = some entry
  | [] => by simp [cacheLookup, cachePut]
  | (k, e) :: rest => by
    unfold cachePut
    by_cases hk : k = key
    · rw [if_pos hk]
      simp [cacheLookup]
    · rw [if_neg hk]
      show cacheLookup key ((k, e) :: cachePut key entry rest) = some entry
      unfold cacheLookup
      rw [List.find?_cons_of_neg]
      · exact cacheLookup_cachePut key entry rest
      · simp [hk]

/-! ## Claim C10: the cache key ignores the limit -/

/-- C10.  The cache key is built from the query and sorted filters only, so a
second `search` with the same query and filters inside the TTL returns the
first call's cached ranked list truncated to its own limit, without
recomputing (the cache is unchanged); since the cached list holds at most
`limit₁` entries, a larger second limit still yields at most `limit₁`
results. -/
theorem search_cache_ignores_limit
    (embedQuery : String → Option (List ℚ))
    (vecSearch : List ℚ → Nat → List (String × String) → List SearchHit)
    (kwSearch : String → Nat → List SearchHit)
    (w : SearchWeights) (ttl : Nat) (st : List (String × CacheEntry))
    (query : String) (limit₁ limit₂ : Nat)
    (filters : List (String × String)) (now₁ now₂ : Nat)
    (hmiss : cacheLookup (cacheKey query filters) st = none)
    (hfresh : now₂ - now₁ < ttl) :
    hybridSearch embedQuery vecSearch kwSearch w ttl
        (hybridSearch embedQuery vecSearch kwSearch w ttl st
          query limit₁ filters now₁).2 query limit₂ filters now₂ =
      ((hybridSearch embedQuery vecSearch kwSearch w ttl st
          query limit₁ filters now₁).1.take limit₂,
       (hybridSearch embedQuery vecSearch kwSearch w ttl st
          query limit₁ filters now₁).2) ∧
    (hybridSearch embedQuery vecSearch kwSearch w ttl st
        query limit₁ filters now₁).1.length ≤ limit₁ ∧
    ((hybridSearch embedQuery vecSearch kwSearch w ttl
        (hybridSearch embedQuery vecSearch kwSearch w ttl st
          query limit₁ filters now₁).2 query limit₂ filters now₂).1.length
      ≤ min limit₁ limit₂) := by
  have hfirst : hybridSearch embedQuery vecSearch kwSearch w ttl st
      query limit₁ filters now₁ =
      (freshSearch embedQuery vecSearch kwSearch w query limit₁ filters,
       cachePut (cacheKey query filters)
         ⟨freshSearch embedQuery vecSearch kwSearch w query limit₁ filters,
          now₁⟩ st) := by
    unfold hybridSearch
    rw [hmiss]
  have hlen₁ : (freshSearch embedQuery vecSearch kwSearch w query limit₁
      filters).length ≤ limit₁ := by
    unfold freshSearch mergeResults
    exact List.length_take_le _ _
  have hsecond : hybridSearch embedQuery vecSearch kwSearch w ttl
      (hybridSearch embedQuery vecSearch kwSearch w ttl st
        query limit₁ filters now₁).2 query limit₂ filters now₂ =
      ((freshSearch embedQuery vecSearch kwSearch w query limit₁
          filters).take limit₂,
       (hybridSearch embedQuery vecSearch kwSearch w ttl st
          query limit₁ filters now₁).2) := by
    rw [hfirst]
    unfold hybridSearch
    rw [cacheLookup_cachePut]
    dsimp only
    rw [if_pos hfresh]
  refine ⟨?_, ?_, ?_⟩
  · rw [hsecond, hfirst]
  · rw [hfirst]
    exact hlen₁
  · rw [hsecond]
    simp only [List.length_take]
    have := List.length_take_le limit₂
      (freshSearch embedQuery vecSearch kwSearch w query limit₁ filters)
    omega

/-- Witness for C10: a concrete second call inside the TTL. -/
theorem search_cache_ignores_limit_witness :
    cacheLookup (cacheKey "python" []) [] = none ∧
    (5 : Nat) - 2 < 300 ∧
    hybridSearch (fun _ => none) (fun _ _ _ => [])
        (fun _ _ => [{ job_id := "j1", rankScore := 1 }]) {} 300
        (hybridSearch (fun _ => none) (fun _ _ _ => [])
          (fun _ _ => [{ job_id := "j1", rankScore := 1 }]) {} 300 []
          "python" 2 [] 2).2 "python" 10 [] 5 =
      ((hybridSearch (fun _ => none) (fun _ _ _ => [])
          (fun _ _ => [{ job_id := "j1", rankScore := 1 }]) {} 300 []
          "python" 2 [] 2).1.take 10,
       (hybridSearch (fun _ => none) (fun _ _ _ => [])
          (fun _ _ => [{ job_id := "j1", rankScore := 1 }]) {} 300 []
          "python" 2 [] 2).2) := by
  refine ⟨rfl, by omega, ?_⟩
  exact (search_cache_ignores_limit (fun _ => none) (fun _ _ _ => [])
    (fun _ _ => [{ job_id := "j1", rankScore := 1 }]) {} 300 []
    "python" 2 10 [] 2 5 rfl (by omega)).1

/-! ### Position of a designated element in the stable descending sort

Python's `sorted(..., key=..., reverse=True)` is a stable descending sort,
which `List.insertionSort` with the relation `key b ≤ key a` implements: an
element ends up after exactly the elements with strictly greater key and the
originally-earlier elements with equal key.  The characterization below pins
the index of the unique element satisfying `P`. -/

theorem findIdx_append_of_forall {α : Type} (P : α → Bool) :
    ∀ (t rest : List α), (∀ y ∈ t, P y = false) →
      (t ++ rest).findIdx P = t.length + rest.findIdx P
  | [], rest, _ => by simp
  | y :: t, rest, h => by
    have hy : P y = false := h y (by simp)
    simp only [List.cons_append, List.findIdx_cons, hy, cond_false,
      List.length_cons]
    rw [findIdx_append_of_forall P t rest (fun z hz => h z (by simp [hz]))]
    omega

theorem findIdx_append_of_exists {α : Type} (P : α → Bool) :
    ∀ (t rest : List α), (∃ y ∈ t, P y = true) →
      (t ++ rest).findIdx P = t.findIdx P
  | [], _, h => by simp at h
  | y :: t, rest, h => by
    by_cases hy : P y = true
    · simp [List.findIdx_cons, hy]
    · have hy' : P y = false := by simpa using hy
      simp only [List.cons_append, List.findIdx_cons, hy', cond_false]
      obtain ⟨z, hz, hPz⟩ := h
      rcases List.mem_cons.mp hz with rfl | hz
      · exact absurd hPz hy
      · rw [findIdx_append_of_exists P t rest ⟨z, hz, hPz⟩]

theorem length_takeWhile_sorted {α : Type} (key : α → ℚ) (c : ℚ) :
    ∀ (s : List α), s.Sorted (fun a b => key b ≤ key a) →
      (s.takeWhile (fun b => decide ¬ (key b ≤ c))).length =
        s.countP (fun b => decide ¬ (key b ≤ c))
  | [], _ => rfl
  | a :: s, hs => by
    have hall : ∀ b ∈ s, key b ≤ key a :=
      fun b hb => (List.sorted_cons.mp hs).1 b hb
    have htail := (List.sorted_cons.mp hs).2
    by_cases hca : key a ≤ c
    · rw [List.takeWhile_cons_of_neg (by simpa using hca)]
      have hz : (a :: s).countP (fun b => decide ¬ (key b ≤ c)) = 0 := by
        rw [List.countP_eq_zero]
        intro b hb
        rcases List.mem_cons.mp hb with rfl | hb
        · simpa using hca
        · simpa using le_trans (hall b hb) hca
      rw [hz]
      rfl
    · rw [List.takeWhile_cons_of_pos (by simpa using hca),
          List.countP_cons_of_pos _ _ (by simpa using hca)]
      simp only [List.length_cons]
      rw [length_takeWhile_sorted key c s htail]

theorem key_le_of_mem_dropWhile {α : Type} (key : α → ℚ) (c : ℚ) :
    ∀ (s : List α), s.Sorted (fun a b => key b ≤ key a) →
      ∀ y ∈ s.dropWhile (fun b => decide ¬ (key b ≤ c)), key y ≤ c
  | [], _, y, hy => by simp [List.dropWhile] at hy
  | a :: s, hs, y, hy => by
    have hall : ∀ b ∈ s, key b ≤ key a :=
      fun b hb => (List.sorted_cons.mp hs).1 b hb
    have htail := (List.sorted_cons.mp hs).2
    by_cases hca : key a ≤ c
    · rw [List.dropWhile_cons_of_neg (by simpa using hca)] at hy
      rcases List.mem_cons.mp hy with rfl | hy
      · exact hca
      · exact le_trans (hall y hy) hca
    · rw [List.dropWhile_cons_of_pos (by simpa using hca)] at hy
      exact key_le_of_mem_dropWhile key c s htail y hy

theorem findIdx_insertionSort_split {α : Type} (key : α → ℚ) (P : α → Bool) :
    ∀ (l₁ : List α) (x : α) (l₂ : List α),
      P x = true →
      (∀ y ∈ l₁, P y = false) → (∀ y ∈ l₂, P y = false) →
      (List.insertionSort (fun a b => key b ≤ key a) (l₁ ++ x :: l₂)).findIdx P
        = l₁.countP (fun y => decide (key x ≤ key y)) +
          l₂.countP (fun y => decide ¬ (key y ≤ key x))
  | [], x, l₂, hPx, _, h₂ => by
    haveI : IsTotal α (fun a b => key b ≤ key a) :=
      ⟨fun a b => le_total (key b) (key a)⟩
    haveI : IsTrans α (fun a b => key b ≤ key a) :=
      ⟨fun a b c h1 h2 => le_trans h2 h1⟩
    have hs := List.sorted_insertionSort (fun a b => key b ≤ key a) l₂
    have hperm := List.perm_insertionSort (fun a b => key b ≤ key a) l₂
    have hnoP : ∀ y ∈ List.insertionSort (fun a b => key b ≤ key a) l₂,
        P y = false := fun y hy => h₂ y (hperm.subset hy)
    show (List.orderedInsert _ x _).findIdx P = _
    rw [List.orderedInsert_eq_take_drop]
    rw [findIdx_append_of_forall P _ _
      (fun y hy => hnoP y ((List.takeWhile_sublist _).subset hy))]
    rw [List.findIdx_cons, hPx, cond_true]
    rw [length_takeWhile_sorted key (key x) _ hs]
    rw [hperm.countP_eq]
    simp
  | a :: l₁, x, l₂, hPx, h₁, h₂ => by
    haveI : IsTotal α (fun a b => key b ≤ key a) :=
      ⟨fun a b => le_total (key b) (key a)⟩
    haveI : IsTrans α (fun a b => key b ≤ key a) :=
      ⟨fun a b c h1 h2 => le_trans h2 h1⟩
    have ih := findIdx_insertionSort_split key P l₁ x l₂ hPx
      (fun y hy => h₁ y (by simp [hy])) h₂
    have hPa : P a = false := h₁ a (by simp)
    obtain ⟨s, hsdef⟩ : ∃ s,
        List.insertionSort (fun a b => key b ≤ key a) (l₁ ++ x :: l₂) = s :=
      ⟨_, rfl⟩
    rw [hsdef] at ih
    have hs : s.Sorted (fun a b => key b ≤ key a) :=
      hsdef ▸ List.sorted_insertionSort _ _
    have hperm : List.Perm s (l₁ ++ x :: l₂) :=
      hsdef ▸ List.perm_insertionSort _ _
    have huniq : ∀ y ∈ s, P y = true → y = x := by
      intro y hy hPy
      have : y ∈ l₁ ++ x :: l₂ := hperm.subset hy
      rcases List.mem_append.mp this with hy₁ | hy₂
      · exact absurd hPy (by simp [h₁ y (by simp [hy₁])])
      · rcases List.mem_cons.mp hy₂ with rfl | hy₂
        · rfl
        · exact absurd hPy (by simp [h₂ y hy₂])
    have hxs : x ∈ s := hperm.mem_iff.mpr (by simp)
    have hsplit : s.takeWhile (fun b => decide ¬ (key b ≤ key a)) ++
        s.dropWhile (fun b => decide ¬ (key b ≤ key a)) = s :=
      List.takeWhile_append_dropWhile _ _
    show (List.orderedInsert _ a (List.insertionSort
        (fun a b => key b ≤ key a) (l₁ ++ x :: l₂))).findIdx P = _
    rw [hsdef, List.orderedInsert_eq_take_drop]
    by_cases hxa : key x ≤ key a
    · -- `a` outranks `x`: inserting `a` shifts `x` one place right
      have hx_ntw : ∀ y ∈ s.takeWhile (fun b => decide ¬ (key b ≤ key a)),
          P y = false := by
        intro y hy
        by_contra hPy
        have hyx : y = x := huniq y ((List.takeWhile_sublist _).subset hy)
          (by simpa using hPy)
        subst hyx
        have := List.mem_takeWhile_imp hy
        simp at this
        exact absurd hxa (by simpa using this)
      rw [findIdx_append_of_forall P _ _ hx_ntw]
      rw [List.findIdx_cons, hPa, cond_false]
      have hold : s.findIdx P =
          (s.takeWhile (fun b => decide ¬ (key b ≤ key a))).length +
          (s.dropWhile (fun b => decide ¬ (key b ≤ key a))).findIdx P := by
        conv_lhs => rw [← hsplit]
        rw [findIdx_append_of_forall P _ _ hx_ntw]
      rw [ih] at hold
      rw [List.countP_cons_of_pos _ _ (by simpa using hxa)]
      omega
    · -- `x` outranks `a`: `x` stays in the takeWhile prefix, index unchanged
      have hx_tw : x ∈ s.takeWhile (fun b => decide ¬ (key b ≤ key a)) := by
        rcases List.mem_append.mp (by rw [hsplit]; exact hxs) with h | h
        · exact h
        · have := key_le_of_mem_dropWhile key (key a) s hs x h
          exact absurd this hxa
      have hexists : ∃ y ∈ s.takeWhile (fun b => decide ¬ (key b ≤ key a)),
          P y = true := ⟨x, hx_tw, hPx⟩
      rw [findIdx_append_of_exists P _ _ hexists]
      have hold : s.findIdx P =
          (s.takeWhile (fun b => decide ¬ (key b ≤ key a))).findIdx P := by
        conv_lhs => rw [← hsplit]
        rw [findIdx_append_of_exists P _ _ hexists]
      rw [← hold, ih, List.countP_cons_of_neg _ _ (by simpa using hxa)]

/-! ### Merge-phase invariants -/

theorem mem_upsertEntry (e : MergedJob) :
    ∀ (l : List MergedJob) (e₂ : MergedJob), e₂ ∈ upsertEntry e l →
      e₂ = e ∨ e₂ ∈ l
  | [], e₂, h => by simpa [upsertEntry] using h
  | e0 :: rest, e₂, h => by
    unfold upsertEntry at h
    by_cases h0 : e0.job_id = e.job_id
    · rw [if_pos h0] at h
      rcases List.mem_cons.mp h with rfl | h
      · exact Or.inl rfl
      · exact Or.inr (by simp [h])
    · rw [if_neg h0] at h
      rcases List.mem_cons.mp h with rfl | h
      · exact Or.inr (by simp)
      · rcases mem_upsertEntry e rest e₂ h with h | h
        · exact Or.inl h
        · exact Or.inr (by simp [h])

theorem containsId_upsertEntry_self (e : MergedJob) :
    ∀ (l : List MergedJob), containsId e.job_id (upsertEntry e l) = true
  | [] => by simp [upsertEntry, containsId]
  | e0 :: rest => by
    unfold upsertEntry
    by_cases h0 : e0.job_id = e.job_id
    · rw [if_pos h0]
      simp [containsId]
    · rw [if_neg h0]
      have := containsId_upsertEntry_self e rest
      simp [containsId] at this ⊢
      exact Or.inr this

theorem containsId_upsertEntry_mono (tid : String) (e : MergedJob) :
    ∀ (l : List MergedJob), containsId tid l = true →
      containsId tid (upsertEntry e l) = true
  | [], h => by simp [containsId] at h
  | e0 :: rest, h => by
    unfold upsertEntry
    by_cases h0 : e0.job_id = e.job_id
    · rw [if_pos h0]
      simp [containsId] at h ⊢
      rcases h with h | h
      · exact Or.inl (by rw [← h0, h])
      · exact Or.inr h
    · rw [if_neg h0]
      simp [containsId] at h ⊢
      rcases h with h | h
      · exact Or.inl h
      · exact Or.inr (by
          have := containsId_upsertEntry_mono tid e rest (by simp [containsId, h])
          simpa [containsId] using this)

theorem mem_phase1 (maxv : ℚ) :
    ∀ (vrs : List SearchHit) (acc : List MergedJob) (e : MergedJob),
      e ∈ phase1 maxv acc vrs →
      e ∈ acc ∨ ∃ r ∈ vrs, e = vecEntry maxv r
  | [], acc, e, h => Or.inl (by simpa [phase1] using h)
  | r :: rs, acc, e, h => by
    unfold phase1 at h
    by_cases hr : r.job_id = ""
    · rw [if_pos hr] at h
      rcases mem_phase1 maxv rs acc e h with h | ⟨r₂, hr₂, he⟩
      · exact Or.inl h
      · exact Or.inr ⟨r₂, by simp [hr₂], he⟩
    · rw [if_neg hr] at h
      rcases mem_phase1 maxv rs _ e h with h | ⟨r₂, hr₂, he⟩
      · rcases mem_upsertEntry _ _ _ h with rfl | h
        · exact Or.inr ⟨r, by simp, rfl⟩
        · exact Or.inl h
      · exact Or.inr ⟨r₂, by simp [hr₂], he⟩

theorem containsId_phase1_mono (maxv : ℚ) (tid : String) :
    ∀ (vrs : List SearchHit) (acc : List MergedJob),
      containsId tid acc = true → containsId tid (phase1 maxv acc vrs) = true
  | [], acc, h => by simpa [phase1] using h
  | r :: rs, acc, h => by
    unfold phase1
    by_cases hr : r.job_id = ""
    · rw [if_pos hr]
      exact containsId_phase1_mono maxv tid rs acc h
    · rw [if_neg hr]
      exact containsId_phase1_mono maxv tid rs _
        (containsId_upsertEntry_mono tid _ acc h)

theorem containsId_phase1_of_mem (maxv : ℚ) (t : SearchHit)
    (htid : t.job_id ≠ "") :
    ∀ (vrs : List SearchHit) (acc : List MergedJob), t ∈ vrs →
      containsId t.job_id (phase1 maxv acc vrs) = true
  | [], _, ht => by simp at ht
  | r :: rs, acc, ht => by
    unfold phase1
    rcases List.mem_cons.mp ht with rfl | ht
    · rw [if_neg htid]
      exact containsId_phase1_mono maxv t.job_id rs _
        (by simpa [vecEntry] using containsId_upsertEntry_self (vecEntry maxv t) acc)
    · by_cases hr : r.job_id = ""
      · rw [if_pos hr]
        exact containsId_phase1_of_mem maxv t htid rs acc ht
      · rw [if_neg hr]
        exact containsId_phase1_of_mem maxv t htid rs _ ht

theorem mem_updKeyword (tid : String) (ks : ℚ) :
    ∀ (l : List MergedJob) (e : MergedJob), e ∈ updKeyword tid ks l →
      ∃ e₀ ∈ l, e.job_id = e₀.job_id ∧ e.vector_score = e₀.vector_score
  | [], e, h => by simp [updKeyword] at h
  | e0 :: rest, e, h => by
    unfold updKeyword at h
    by_cases h0 : e0.job_id = tid
    · rw [if_pos h0] at h
      rcases List.mem_cons.mp h with rfl | h
      · exact ⟨e0, by simp⟩
      · exact ⟨e, by simp [h]⟩
    · rw [if_neg h0] at h
      rcases List.mem_cons.mp h with rfl | h
      · exact ⟨e, by simp⟩
      · obtain ⟨e₀, he₀, hprops⟩ := mem_updKeyword tid ks rest e h
        exact ⟨e₀, by simp [he₀], hprops⟩

theorem containsId_updKeyword (tid tid₂ : String) (ks : ℚ) :
    ∀ (l : List MergedJob),
      containsId tid (updKeyword tid₂ ks l) = containsId tid l
  | [] => rfl
  | e0 :: rest => by
    unfold updKeyword
    by_cases h0 : e0.job_id = tid₂
    · rw [if_pos h0]
      simp [containsId]
    · rw [if_neg h0]
      simp only [containsId, List.any_cons]
      rw [show (updKeyword tid₂ ks rest).any (fun e => e.job_id == tid)
          = containsId tid (updKeyword tid₂ ks rest) from rfl,
        containsId_updKeyword tid tid₂ ks rest]
      rfl

theorem containsId_iff (tid : String) (l : List MergedJob) :
    containsId tid l = true ↔ tid ∈ l.map MergedJob.job_id := by
  simp only [containsId, List.any_eq_true, beq_iff_eq, List.mem_map]

theorem exists_mem_of_containsId (tid : String) (l : List MergedJob)
    (h : containsId tid l = true) : ∃ e ∈ l, e.job_id = tid := by
  simpa [containsId, List.any_eq_true] using h

theorem containsId_phase2_mono (maxk : ℚ) (tid : String) :
    ∀ (krs : List SearchHit) (acc : List MergedJob),
      containsId tid acc = true → containsId tid (phase2 maxk acc krs) = true
  | [], acc, h => by simpa [phase2] using h
  | r :: rs, acc, h => by
    unfold phase2
    by_cases hr : r.job_id = ""
    · rw [if_pos hr]
      exact containsId_phase2_mono maxk tid rs acc h
    · rw [if_neg hr]
      by_cases hc : containsId r.job_id acc = true
      · rw [if_pos hc]
        exact containsId_phase2_mono maxk tid rs _
          (by rw [containsId_updKeyword]; exact h)
      · rw [if_neg hc]
        refine containsId_phase2_mono maxk tid rs _ ?_
        rw [containsId_iff] at h ⊢
        simp [h]

/-- The vector score of the entry under a given id is unchanged by the
keyword loop, provided the id is already present. -/
theorem phase2_vector_score_at (maxk : ℚ) (tid : String) (v : ℚ) :
    ∀ (krs : List SearchHit) (acc : List MergedJob),
      containsId tid acc = true →
      (∀ e ∈ acc, e.job_id = tid → e.vector_score = v) →
      ∀ e ∈ phase2 maxk acc krs, e.job_id = tid → e.vector_score = v
  | [], acc, _, hval, e, he, hid => hval e (by simpa [phase2] using he) hid
  | r :: rs, acc, hc, hval, e, he, hid => by
    unfold phase2 at he
    by_cases hr : r.job_id = ""
    · rw [if_pos hr] at he
      exact phase2_vector_score_at maxk tid v rs acc hc hval e he hid
    · rw [if_neg hr] at he
      by_cases hcr : containsId r.job_id acc = true
      · rw [if_pos hcr] at he
        refine phase2_vector_score_at maxk tid v rs _ ?_ ?_ e he hid
        · rw [containsId_updKeyword]
          exact hc
        · intro e₂ he₂ hid₂
          obtain ⟨e₀, he₀, hids, hvs⟩ := mem_updKeyword _ _ _ e₂ he₂
          rw [hvs]
          exact hval e₀ he₀ (by rw [← hids, hid₂])
      · rw [if_neg hcr] at he
        have hrtid : r.job_id ≠ tid := by
          intro hrt
          rw [hrt] at hcr
          exact hcr hc
        refine phase2_vector_score_at maxk tid v rs _ ?_ ?_ e he hid
        · rw [containsId_iff] at hc ⊢
          simp [hc]
        · intro e₂ he₂ hid₂
          rcases List.mem_append.mp he₂ with he₂ | he₂
          · exact hval e₂ he₂ hid₂
          · rcases List.mem_singleton.mp he₂ with rfl
            exact absurd hid₂ (by simpa [kwEntry] using hrtid)

/-- Every entry's vector score stays below a bound through the keyword loop
(new keyword-only entries carry vector score 0). -/
theorem phase2_vector_score_le (maxk vmax : ℚ) (hv0 : 0 ≤ vmax) :
    ∀ (krs : List SearchHit) (acc : List MergedJob),
      (∀ e ∈ acc, e.vector_score ≤ vmax) →
      ∀ e ∈ phase2 maxk acc krs, e.vector_score ≤ vmax
  | [], acc, hval, e, he => hval e (by simpa [phase2] using he)
  | r :: rs, acc, hval, e, he => by
    unfold phase2 at he
    by_cases hr : r.job_id = ""
    · rw [if_pos hr] at he
      exact phase2_vector_score_le maxk vmax hv0 rs acc hval e he
    · rw [if_neg hr] at he
      by_cases hcr : containsId r.job_id acc = true
      · rw [if_pos hcr] at he
        refine phase2_vector_score_le maxk vmax hv0 rs _ ?_ e he
        intro e₂ he₂
        obtain ⟨e₀, he₀, _, hvs⟩ := mem_updKeyword _ _ _ e₂ he₂
        rw [hvs]
        exact hval e₀ he₀
      · rw [if_neg hcr] at he
        refine phase2_vector_score_le maxk vmax hv0 rs _ ?_ e he
        intro e₂ he₂
        rcases List.mem_append.mp he₂ with he₂ | he₂
        · exact hval e₂ he₂
        · rcases List.mem_singleton.mp he₂ with rfl
          simpa [kwEntry] using hv0

theorem map_jobId_updKeyword (tid : String) (ks : ℚ) :
    ∀ (l : List MergedJob),
      (updKeyword tid ks l).map MergedJob.job_id = l.map MergedJob.job_id
  | [] => rfl
  | e0 :: rest => by
    unfold updKeyword
    by_cases h0 : e0.job_id = tid
    · rw [if_pos h0]
      simp [h0]
    · rw [if_neg h0]
      simp [map_jobId_updKeyword tid ks rest]

theorem nodup_upsertEntry (e : MergedJob) :
    ∀ (l : List MergedJob), (l.map MergedJob.job_id).Nodup →
      ((upsertEntry e l).map MergedJob.job_id).Nodup
  | [], _ => by simp [upsertEntry]
  | e0 :: rest, h => by
    unfold upsertEntry
    rw [List.map_cons, List.nodup_cons] at h
    by_cases h0 : e0.job_id = e.job_id
    · rw [if_pos h0]
      rw [List.map_cons, List.nodup_cons]
      exact ⟨by rw [← h0]; exact h.1, h.2⟩
    · rw [if_neg h0]
      rw [List.map_cons, List.nodup_cons]
      constructor
      · intro hmem
        rcases List.mem_map.mp hmem with ⟨e₂, he₂, hid⟩
        rcases mem_upsertEntry e rest e₂ he₂ with rfl | he₂
        · exact h0 hid.symm
        · exact h.1 (List.mem_map.mpr ⟨e₂, he₂, hid⟩)
      · exact nodup_upsertEntry e rest h.2

theorem nodup_phase1 (maxv : ℚ) :
    ∀ (vrs : List SearchHit) (acc : List MergedJob),
      (acc.map MergedJob.job_id).Nodup →
      ((phase1 maxv acc vrs).map MergedJob.job_id).Nodup
  | [], _, h => by simpa [phase1] using h
  | r :: rs, acc, h => by
    unfold phase1
    by_cases hr : r.job_id = ""
    · rw [if_pos hr]
      exact nodup_phase1 maxv rs acc h
    · rw [if_neg hr]
      exact nodup_phase1 maxv rs _ (nodup_upsertEntry _ acc h)

theorem nodup_phase2 (maxk : ℚ) :
    ∀ (krs : List SearchHit) (acc : List MergedJob),
      (acc.map MergedJob.job_id).Nodup →
      ((phase2 maxk acc krs).map MergedJob.job_id).Nodup
  | [], _, h => by simpa [phase2] using h
  | r :: rs, acc, h => by
    unfold phase2
    by_cases hr : r.job_id = ""
    · rw [if_pos hr]
      exact nodup_phase2 maxk rs acc h
    · rw [if_neg hr]
      by_cases hcr : containsId r.job_id acc = true
      · rw [if_pos hcr]
        exact nodup_phase2 maxk rs _ (by rw [map_jobId_updKeyword]; exact h)
      · rw [if_neg hcr]
        refine nodup_phase2 maxk rs _ ?_
        rw [List.map_append]
        rw [List.nodup_append]
        refine ⟨h, by simp, ?_⟩
        intro a ha hb
        simp [kwEntry] at hb
        rw [containsId_iff] at hcr
        rw [hb] at ha
        exact hcr ha

/-! ### Maximum and normalization bounds -/

theorem foldl_max_le (m : ℚ) :
    ∀ (rest : List ℚ) (a : ℚ), a ≤ m → (∀ b ∈ rest, b ≤ m) →
      rest.foldl max a ≤ m
  | [], _, ha, _ => ha
  | b :: rest, a, ha, hb =>
    foldl_max_le m rest (max a b) (max_le ha (hb b (by simp)))
      (fun c hc => hb c (by simp [hc]))

theorem le_foldl_max : ∀ (rest : List ℚ) (a b : ℚ), b ∈ a :: rest →
    b ≤ rest.foldl max a
  | [], a, b, h => by
    simp at h
    simp [h]
  | c :: rest, a, b, h => by
    show b ≤ rest.foldl max (max a c)
    rcases List.mem_cons.mp h with rfl | h
    · exact le_trans (le_max_left b c) (le_foldl_max rest (max b c) _ (by simp))
    · rcases List.mem_cons.mp h with rfl | h
      · exact le_trans (le_max_right a b) (le_foldl_max rest (max a b) _ (by simp))
      · exact le_foldl_max rest (max a c) b (by simp [h])

theorem maxSimilarity_eq (vrs : List SearchHit) (t : SearchHit) (ht : t ∈ vrs)
    (hmax : ∀ r ∈ vrs, r.similarity ≤ t.similarity) :
    maxSimilarity vrs = t.similarity := by
  unfold maxSimilarity
  cases hv : vrs.map SearchHit.similarity with
  | nil =>
    rcases List.map_eq_nil_iff.mp hv with rfl
    simp at ht
  | cons a rest =>
    refine le_antisymm ?_ ?_
    · refine foldl_max_le t.similarity rest a ?_ ?_
      · have : a ∈ vrs.map SearchHit.similarity := by simp [hv]
        rcases List.mem_map.mp this with ⟨r, hr, rfl⟩
        exact hmax r hr
      · intro b hb
        have : b ∈ vrs.map SearchHit.similarity := by simp [hv, hb]
        rcases List.mem_map.mp this with ⟨r, hr, rfl⟩
        exact hmax r hr
    · refine le_foldl_max rest a t.similarity ?_
      rw [← hv]
      exact List.mem_map.mpr ⟨t, ht, rfl⟩

theorem normScore_le_norm_max (maxv sim : ℚ) (hs : sim ≤ maxv) :
    normScore maxv sim ≤ normScore maxv maxv := by
  unfold normScore
  by_cases h : 0 < maxv
  · rw [if_pos h, if_pos h]
    exact div_le_div_of_nonneg_right hs h.le
  · rw [if_neg h, if_neg h]

theorem normScore_max_nonneg (maxv : ℚ) : 0 ≤ normScore maxv maxv := by
  unfold normScore
  by_cases h : 0 < maxv
  · rw [if_pos h]
    exact div_nonneg (le_of_lt h) (le_of_lt h)
  · rw [if_neg h]

/-- The score gap between the top-vector entry and any other entry widens
(weakly) when the vector weight grows, the other two weights staying put. -/
theorem combined_gap (w w' : SearchWeights)
    (hkm : w'.keyword_match = w.keyword_match)
    (hfr : w'.freshness = w.freshness)
    (hvv : w.vector_similarity ≤ w'.vector_similarity)
    (et y : MergedJob) (hbnd : y.vector_score ≤ et.vector_score) :
    combinedOf w et - combinedOf w y ≤ combinedOf w' et - combinedOf w' y := by
  unfold combinedOf
  rw [hkm, hfr]
  nlinarith [mul_nonneg (sub_nonneg.mpr hvv) (sub_nonneg.mpr hbnd)]

/-! ## Claim C6: hybrid merge monotonicity -/

/-- C6.  Fix the raw vector and keyword result sets.  Raising the vector
weight while keeping the keyword and freshness weights fixed never pushes the
item holding the highest raw vector similarity down the combined-score
ranking: its index in the descending sort under the larger vector weight is
at most its index under the smaller one.  (The hypotheses say `t` is a
top-similarity vector row with a truthy id, and that rows sharing its id
share its similarity — the degenerate duplicate-id case in which the dict
overwrite discards the top score.) -/
theorem hybrid_merge_monotonicity
    (vrs krs : List SearchHit) (t : SearchHit) (w w' : SearchWeights)
    (hkm : w'.keyword_match = w.keyword_match)
    (hfr : w'.freshness = w.freshness)
    (hvv : w.vector_similarity ≤ w'.vector_similarity)
    (ht : t ∈ vrs) (htid : t.job_id ≠ "")
    (hmax : ∀ r ∈ vrs, r.similarity ≤ t.similarity)
    (hsame : ∀ r ∈ vrs, r.job_id = t.job_id → r.similarity = t.similarity) :
    (sortedMerged w' vrs krs).findIdx (fun e => e.job_id == t.job_id) ≤
      (sortedMerged w vrs krs).findIdx (fun e => e.job_id == t.job_id) := by
  obtain ⟨base, hbase⟩ : ∃ b, mergeEntries vrs krs = b := ⟨_, rfl⟩
  have hmv : maxSimilarity vrs = t.similarity := maxSimilarity_eq vrs t ht hmax
  -- the top entry is present, unique, carries the maximal normalized score
  have hcont : containsId t.job_id base = true := by
    rw [← hbase]
    exact containsId_phase2_mono _ _ krs _
      (containsId_phase1_of_mem _ t htid vrs [] ht)
  have hval : ∀ e ∈ base, e.job_id = t.job_id →
      e.vector_score = normScore (maxSimilarity vrs) t.similarity := by
    rw [← hbase]
    refine phase2_vector_score_at _ _ _ krs _
      (containsId_phase1_of_mem _ t htid vrs [] ht) ?_
    intro e he hid
    rcases mem_phase1 _ vrs [] e he with h | ⟨r, hr, rfl⟩
    · simp at h
    · have : r.similarity = t.similarity :=
        hsame r hr (by simpa [vecEntry] using hid)
      simp [vecEntry, this]
  have hbnd : ∀ e ∈ base, e.vector_score ≤
      normScore (maxSimilarity vrs) t.similarity := by
    rw [← hbase]
    refine phase2_vector_score_le _ _ ?_ krs _ ?_
    · rw [hmv]
      exact normScore_max_nonneg _
    · intro e he
      rcases mem_phase1 _ vrs [] e he with h | ⟨r, hr, rfl⟩
      · simp at h
      · show normScore (maxSimilarity vrs) r.similarity ≤ _
        rw [hmv]
        exact normScore_le_norm_max _ _ (hmax r hr)
  have hnodup : (base.map MergedJob.job_id).Nodup := by
    rw [← hbase]
    exact nodup_phase2 _ krs _ (nodup_phase1 _ vrs [] (by simp))
  obtain ⟨et, hetmem, hetid⟩ := exists_mem_of_containsId _ _ hcont
  obtain ⟨b₁, b₂, hsplit⟩ := List.append_of_mem hetmem
  have hPn : ∀ y ∈ b₁ ++ b₂, (y.job_id == t.job_id) = false := by
    have h2 := hnodup
    rw [hsplit, List.map_append, List.map_cons] at h2
    rcases List.nodup_append.mp h2 with ⟨hn₁, hn₂, hdisj⟩
    rcases List.nodup_cons.mp hn₂ with ⟨hnot₂, _⟩
    intro y hy
    rcases List.mem_append.mp hy with hy | hy
    · by_contra hcon
      have hyid : y.job_id = t.job_id := by simpa using hcon
      have : et.job_id ∈ b₁.map MergedJob.job_id := by
        rw [hetid, ← hyid]
        exact List.mem_map.mpr ⟨y, hy, rfl⟩
      exact hdisj this (by simp)
    · by_contra hcon
      have hyid : y.job_id = t.job_id := by simpa using hcon
      apply hnot₂
      rw [hetid, ← hyid]
      exact List.mem_map.mpr ⟨y, hy, rfl⟩
  have hPb₁ : ∀ y ∈ b₁, (y.job_id == t.job_id) = false :=
    fun y hy => hPn y (by simp [hy])
  have hPb₂ : ∀ y ∈ b₂, (y.job_id == t.job_id) = false :=
    fun y hy => hPn y (by simp [hy])
  have hetvs : et.vector_score = normScore (maxSimilarity vrs) t.similarity :=
    hval et hetmem hetid
  -- index characterization for an arbitrary weight configuration
  have hidx : ∀ wx : SearchWeights,
      (sortedMerged wx vrs krs).findIdx (fun e => e.job_id == t.job_id) =
        b₁.countP (fun y => decide (combinedOf wx et ≤ combinedOf wx y)) +
        b₂.countP (fun y => decide ¬ (combinedOf wx y ≤ combinedOf wx et)) := by
    intro wx
    have hmapsplit : scoredEntries wx vrs krs =
        b₁.map (scoreEntry wx) ++ scoreEntry wx et :: b₂.map (scoreEntry wx) := by
      unfold scoredEntries
      rw [hbase, hsplit, List.map_append, List.map_cons]
    have := findIdx_insertionSort_split MergedJob.combined_score
      (fun e => e.job_id == t.job_id)
      (b₁.map (scoreEntry wx)) (scoreEntry wx et) (b₂.map (scoreEntry wx))
      (by simpa [scoreEntry] using hetid)
      (by
        intro y hy
        rcases List.mem_map.mp hy with ⟨y₀, hy₀, rfl⟩
        simpa [scoreEntry] using hPb₁ y₀ hy₀)
      (by
        intro y hy
        rcases List.mem_map.mp hy with ⟨y₀, hy₀, rfl⟩
        simpa [scoreEntry] using hPb₂ y₀ hy₀)
    unfold sortedMerged
    rw [hmapsplit, this, List.countP_map, List.countP_map]
    rfl
  rw [hidx w, hidx w']
  have hb₁sub : ∀ y ∈ b₁, y ∈ base := by
    intro y hy
    rw [hsplit]
    simp [hy]
  have hb₂sub : ∀ y ∈ b₂, y ∈ base := by
    intro y hy
    rw [hsplit]
    simp [hy]
  have hmono₁ : b₁.countP
      (fun y => decide (combinedOf w' et ≤ combinedOf w' y)) ≤
      b₁.countP (fun y => decide (combinedOf w et ≤ combinedOf w y)) := by
    refine List.countP_mono_left ?_
    intro y hy hp
    have hgap := combined_gap w w' hkm hfr hvv et y
      (by rw [hetvs]; exact hbnd y (hb₁sub y hy))
    simp only [decide_eq_true_eq] at hp ⊢
    linarith
  have hmono₂ : b₂.countP
      (fun y => decide ¬ (combinedOf w' y ≤ combinedOf w' et)) ≤
      b₂.countP (fun y => decide ¬ (combinedOf w y ≤ combinedOf w et)) := by
    refine List.countP_mono_left ?_
    intro y hy hp
    have hgap := combined_gap w w' hkm hfr hvv et y
      (by rw [hetvs]; exact hbnd y (hb₂sub y hy))
    simp only [decide_eq_true_eq, not_le] at hp ⊢
    linarith
  omega

/-- Top-similarity vector row for the C6 witness. -/
def wHitA : SearchHit := { job_id := "a", similarity := 1 }

/-- Lower-similarity vector row for the C6 witness. -/
def wHitB : SearchHit := { job_id := "b", similarity := 1 / 2 }

/-- Keyword row for the C6 witness. -/
def wHitKB : SearchHit := { job_id := "b", rankScore := 1 }

/-- Witness for C6: raising the vector weight from the default 0.6 to 0.7
(keyword 0.3 and freshness 0.1 fixed) does not worsen the rank of the
top-vector-similarity item on a concrete result set. -/
theorem hybrid_merge_monotonicity_witness :
    (sortedMerged { vector_similarity := 7 / 10 } [wHitA, wHitB]
        [wHitKB]).findIdx (fun e => e.job_id == "a") ≤
      (sortedMerged {} [wHitA, wHitB] [wHitKB]).findIdx
        (fun e => e.job_id == "a") :=
  hybrid_merge_monotonicity [wHitA, wHitB] [wHitKB] wHitA {}
    { vector_similarity := 7 / 10 } rfl rfl (by norm_num) (by simp)
    (by decide)
    (by
      intro r hr
      simp only [List.mem_cons, List.not_mem_nil, or_false] at hr
      rcases hr with rfl | rfl
      · exact le_refl _
      · show wHitB.similarity ≤ wHitA.similarity
        simp only [wHitA, wHitB]
        norm_num)
    (by
      intro r hr
      simp only [List.mem_cons, List.not_mem_nil, or_false] at hr
      rcases hr with rfl | rfl
      · intro _
        rfl
      · intro h
        exact absurd h (by decide))
